import Mathlib

/-!
Shallow embedding of the sequence-theory core in `src/smt/theory_seq.cpp`
(z3's `smt::theory_seq`), together with proofs that settle the frozen
claims about its specification.

Each definition in the `Z3Seq` namespace is translated from a concrete
function of `theory_seq.cpp`; the source function and line range are
named in its doc comment.  External collaborators (the SAT context, the
arithmetic theory, the term rewriter, the axiom module) enter as oracle
parameters.  Definitions whose code is not part of this repository's
sources are explicitly marked `Modelled from the spec:`.
-/

namespace Z3Seq

/-! ## Final-check cascade (`final_check_eh`, lines 349-439, and `is_solved`, lines 701-741) -/

/-- Result statuses of `final_check_eh` (`FC_DONE`, `FC_CONTINUE`, `FC_GIVEUP`). -/
inductive FinalCheckStatus where
  | FC_DONE
  | FC_CONTINUE
  | FC_GIVEUP
  deriving DecidableEq, Repr

/-- Names for the rules of the final-check cascade, in the guise they
appear in `final_check_eh` (lines 349-439). `fixedLengthZero` is the
call `fixed_length(true)`, `fixedLengthGeneral` the call
`fixed_length()`. -/
inductive RuleName where
  | solveEqs
  | checkLts
  | solveNqs
  | checkContains
  | fixedLengthZero
  | lenBasedSplit
  | fixedLengthGeneral
  | checkIntString
  | reduceLengthEq
  | branchUnitVariable
  | branchBinaryVariable
  | branchVariable
  | checkLengthCoherence
  | extensionality
  | branchNqs
  deriving DecidableEq, Repr

/-- State observed by one round of `final_check_eh`: the boolean result
each rule body would report this round, the configuration flag
`m_params.m_split_w_len`, and the stores inspected by `is_solved`
(`m_eqs`, `m_automata` — `true` marks a compiled automaton, `false` a
null entry — and `m_ncs`).  `checkExtensionality` holds the return
value of `check_extensionality()`; the cascade continues on `false`. -/
structure FCState where
  hasSeq : Bool
  solveEqs : Bool
  checkLts : Bool
  solveNqs : Bool
  checkContains : Bool
  fixedLengthZero : Bool
  splitWLen : Bool
  lenBasedSplit : Bool
  fixedLengthGeneral : Bool
  checkIntString : Bool
  reduceLengthEq : Bool
  branchUnitVariable : Bool
  branchBinaryVariable : Bool
  branchVariable : Bool
  checkLengthCoherence : Bool
  checkExtensionality : Bool
  branchNqs : Bool
  eqs : List Nat
  automata : List Bool
  ncs : List Nat
  deriving DecidableEq, Repr

/-- Translation of `theory_seq::is_solved` (lines 701-741): solved iff
the equation store is empty, every recorded automaton is non-null, and
no not-contains constraint remains. -/
def is_solved (s : FCState) : Bool :=
  if !s.eqs.isEmpty then false
  else if s.automata.any (fun a => !a) then false
  else if !s.ncs.isEmpty then false
  else true

/-- Translation of `theory_seq::final_check_eh` (lines 349-439): the
cascade of rules, returning `FC_CONTINUE` at the first rule that fires,
`FC_DONE`/`FC_GIVEUP` according to `is_solved` otherwise.  The call
`len_based_split()` is guarded by `m_params.m_split_w_len`, and
`check_extensionality()` continues the cascade when it returns
`false`. -/
def final_check_eh (s : FCState) : FinalCheckStatus :=
  if !s.hasSeq then .FC_DONE
  else if s.solveEqs then .FC_CONTINUE
  else if s.checkLts then .FC_CONTINUE
  else if s.solveNqs then .FC_CONTINUE
  else if s.checkContains then .FC_CONTINUE
  else if s.fixedLengthZero then .FC_CONTINUE
  else if s.splitWLen && s.lenBasedSplit then .FC_CONTINUE
  else if s.fixedLengthGeneral then .FC_CONTINUE
  else if s.checkIntString then .FC_CONTINUE
  else if s.reduceLengthEq then .FC_CONTINUE
  else if s.branchUnitVariable then .FC_CONTINUE
  else if s.branchBinaryVariable then .FC_CONTINUE
  else if s.branchVariable then .FC_CONTINUE
  else if s.checkLengthCoherence then .FC_CONTINUE
  else if !s.checkExtensionality then .FC_CONTINUE
  else if s.branchNqs then .FC_CONTINUE
  else if is_solved s then .FC_DONE
  else .FC_GIVEUP

/-- The rule whose firing caused `final_check_eh` to return
`FC_CONTINUE` this round (the rule whose `TRACEFIN` tag is reached), or
`none` if no rule fired. Mirrors the same if-chain as
`final_check_eh`. -/
def firedRule (s : FCState) : Option RuleName :=
  if !s.hasSeq then none
  else if s.solveEqs then some .solveEqs
  else if s.checkLts then some .checkLts
  else if s.solveNqs then some .solveNqs
  else if s.checkContains then some .checkContains
  else if s.fixedLengthZero then some .fixedLengthZero
  else if s.splitWLen && s.lenBasedSplit then some .lenBasedSplit
  else if s.fixedLengthGeneral then some .fixedLengthGeneral
  else if s.checkIntString then some .checkIntString
  else if s.reduceLengthEq then some .reduceLengthEq
  else if s.branchUnitVariable then some .branchUnitVariable
  else if s.branchBinaryVariable then some .branchBinaryVariable
  else if s.branchVariable then some .branchVariable
  else if s.checkLengthCoherence then some .checkLengthCoherence
  else if !s.checkExtensionality then some .extensionality
  else if s.branchNqs then some .branchNqs
  else none

/-- Whether a given cascade rule fires in state `s` (the boolean the
corresponding `if` in `final_check_eh` tests). -/
def ruleFires (s : FCState) : RuleName → Bool
  | .solveEqs => s.solveEqs
  | .checkLts => s.checkLts
  | .solveNqs => s.solveNqs
  | .checkContains => s.checkContains
  | .fixedLengthZero => s.fixedLengthZero
  | .lenBasedSplit => s.splitWLen && s.lenBasedSplit
  | .fixedLengthGeneral => s.fixedLengthGeneral
  | .checkIntString => s.checkIntString
  | .reduceLengthEq => s.reduceLengthEq
  | .branchUnitVariable => s.branchUnitVariable
  | .branchBinaryVariable => s.branchBinaryVariable
  | .branchVariable => s.branchVariable
  | .checkLengthCoherence => s.checkLengthCoherence
  | .extensionality => !s.checkExtensionality
  | .branchNqs => s.branchNqs

/-- The order in which `final_check_eh` actually tries its rules
(lines 357-430): note `lenBasedSplit` sits between the two
`fixed_length` passes. -/
def cascadeOrder : List RuleName :=
  [.solveEqs, .checkLts, .solveNqs, .checkContains, .fixedLengthZero,
   .lenBasedSplit, .fixedLengthGeneral, .checkIntString, .reduceLengthEq,
   .branchUnitVariable, .branchBinaryVariable, .branchVariable,
   .checkLengthCoherence, .extensionality, .branchNqs]

end Z3Seq

namespace Z3Seq

/-- An all-quiet cascade state used in proofs: no rule fires and the
stores are empty. -/
def quietState : FCState :=
  { hasSeq := true, solveEqs := false, checkLts := false, solveNqs := false,
    checkContains := false, fixedLengthZero := false, splitWLen := false,
    lenBasedSplit := false, fixedLengthGeneral := false, checkIntString := false,
    reduceLengthEq := false, branchUnitVariable := false,
    branchBinaryVariable := false, branchVariable := false,
    checkLengthCoherence := false, checkExtensionality := true,
    branchNqs := false, eqs := [], automata := [], ncs := [] }

/-! ## Int-to-string equations (`solve_itos`, lines 978-1016) -/

/-- Integer-side expressions built by `solve_itos`: the integer argument
`n` of `itos`, numerals, the Skolem `digit2int` applications, and the
sums/products assembled by the base-10 fold. -/
inductive ArithExpr where
  | nvar
  | int (k : Int)
  | digit2int (c : Char)
  | add (a b : ArithExpr)
  | mul (a b : ArithExpr)
  deriving DecidableEq, Repr

/-- Elements of a canonized sequence side: a `unit` of a character or
any other (non-unit) sequence term, identified by id. -/
inductive SeqElem where
  | unit (c : Char)
  | other (id : Nat)
  deriving DecidableEq, Repr

/-- Literals `solve_itos` propagates: `m_ax.mk_le(n,-1)`, the
`is_digit` predicate of a unit, the equation `n = num`, and
`m_ax.mk_ge(digit,1)`. -/
inductive ItosLit where
  | le (e : ArithExpr) (k : Int)
  | isDigit (c : Char)
  | eqNum (lhs rhs : ArithExpr)
  | ge (e : ArithExpr) (k : Int)
  deriving DecidableEq, Repr

/-- The base-10 fold of `solve_itos` (lines 996-1007): walk `rs`,
fail on a non-unit, otherwise accumulate
`num := 10 * num + digit2int u`. -/
def itosNumLoop : List SeqElem → Option ArithExpr → Option ArithExpr
  | [], acc => acc
  | .unit u :: rs, none => itosNumLoop rs (some (.digit2int u))
  | .unit u :: rs, some num =>
      itosNumLoop rs (some (.add (.mul (.int 10) num) (.digit2int u)))
  | .other _ :: _, _ => none

/-- Translation of `theory_seq::solve_itos(expr* n, rs, dep)`
(lines 978-1016).  Returns the list of propagated literals and the
boolean result.  `isDigitKnown` models membership of a unit's character
in `m_is_digit` joined with its `is_digit` literal being assigned true
(line 986 and 990): for such characters no `is_digit` literal is
re-propagated. -/
def solve_itos (isDigitKnown : Char → Bool) (rs : List SeqElem) :
    List ItosLit × Bool :=
  if rs.isEmpty then ([ItosLit.le .nvar (-1)], true)
  else
    let digitLits : List ItosLit := rs.filterMap fun r =>
      match r with
      | .unit u => if isDigitKnown u then none else some (ItosLit.isDigit u)
      | .other _ => none
    match itosNumLoop rs none with
    | none => (digitLits, false)
    | some num =>
      let lits := digitLits ++ [ItosLit.eqNum .nvar num]
      if 1 < rs.length then
        match rs.head? with
        | some (.unit u) => (lits ++ [ItosLit.ge (.digit2int u) 1], true)
        | _ => (lits, true)
      else (lits, true)

/-- Modelled from the spec: `digit2int(c)` is "the numeric value of a
decimal digit unit" (Skolem table, spec section 4.5).  The axiom module
that pins this value down is external to the sources under `src/`. -/
def digit2intVal (c : Char) : Int :=
  (c.toNat : Int) - 48

/-- Evaluate an integer-side expression under a value `nval` for the
`itos` argument `n`, with `digit2int` interpreted by `digit2intVal`. -/
def evalArith (nval : Int) : ArithExpr → Int
  | .nvar => nval
  | .int k => k
  | .digit2int c => digit2intVal c
  | .add a b => evalArith nval a + evalArith nval b
  | .mul a b => evalArith nval a * evalArith nval b

/-- Truth of a propagated `solve_itos` literal under a value for `n`.
`isDigit c` holds for the ten decimal digit characters. -/
def itosLitHolds (nval : Int) : ItosLit → Bool
  | .le e k => evalArith nval e ≤ k
  | .isDigit c => 48 ≤ c.toNat && c.toNat ≤ 57
  | .eqNum a b => evalArith nval a == evalArith nval b
  | .ge e k => k ≤ evalArith nval e

/-- The canonized right-hand side of `itos(n) = "042"`: with
`coalesce_chars` disabled (constructor, line 317) the string literal is
the concatenation of its character units. -/
def units042 : List SeqElem :=
  [.unit '0', .unit '4', .unit '2']

/-- The base-10 fold `solve_itos` builds for the digit string "042":
`10*(10*digit2int('0') + digit2int('4')) + digit2int('2')`. -/
def num042 : ArithExpr :=
  .add (.mul (.int 10) (.add (.mul (.int 10) (.digit2int '0')) (.digit2int '4')))
    (.digit2int '2')

/-! ## Restart bound updates (`should_research`, lines 3423-3458) -/

/-- Elements of the unsat core as classified by `should_research`:
the `max_unfolding` assumption literal, a `length_limit(s,k)` literal
(with `s` by id), or anything else. -/
inductive CoreElem where
  | maxUnfolding
  | lengthLimit (s : Nat) (k : Nat)
  | other (id : Nat)
  deriving DecidableEq, Repr

/-- Loop state of the scan in `should_research` (lines 3428-3445):
current minimal `k` (`none` encodes the initial `UINT_MAX`), its term
`s_min`, the tie counter `n`, whether `max_unfolding` was seen, and the
index into the random stream (`get_random_value`). -/
structure ScanState where
  kMin : Option Nat
  sMin : Option Nat
  n : Nat
  hasMaxUnfolding : Bool
  ridx : Nat
  deriving DecidableEq, Repr

/-- The scan loop of `should_research` (lines 3431-3445): track the
minimal `k` of the `length_limit` literals in the core, break ties with
`get_random_value() % (++n)`, and record whether `max_unfolding`
occurs. -/
def scanCore (rand : Nat → Nat) : List CoreElem → ScanState → ScanState
  | [], st => st
  | .maxUnfolding :: es, st => scanCore rand es { st with hasMaxUnfolding := true }
  | .other _ :: es, st => scanCore rand es st
  | .lengthLimit s k :: es, st =>
    match st.kMin with
    | none => scanCore rand es { st with kMin := some k, sMin := some s, n := 0 }
    | some km =>
      if k < km then
        scanCore rand es { st with kMin := some k, sMin := some s, n := 0 }
      else if k = km then
        let n1 := st.n + 1
        if rand st.ridx % n1 = 0 then
          scanCore rand es { st with sMin := some s, n := n1, ridx := st.ridx + 1 }
        else
          scanCore rand es { st with n := n1, ridx := st.ridx + 1 }
      else scanCore rand es st

/-- Result of `should_research`: whether a restart is requested, the new
`m_max_unfolding_depth`, and the new length limit
`add_length_limit(s_min, 2*k_min, false)` if one is raised. -/
structure ResearchResult where
  restart : Bool
  newDepth : Nat
  newLimit : Option (Nat × Nat)
  deriving DecidableEq, Repr

/-- Translation of `theory_seq::should_research` (lines 3423-3458): if
the core holds a `length_limit` literal, increment the depth and double
the minimal limit; otherwise, if it holds `max_unfolding`, update the
depth to `(1+3d)/2`; otherwise no restart. -/
def should_research (hasSeq : Bool) (depth : Nat) (rand : Nat → Nat)
    (core : List CoreElem) : ResearchResult :=
  if !hasSeq then ⟨false, depth, none⟩
  else
    let st := scanCore rand core ⟨none, none, 0, false, 0⟩
    match st.kMin, st.sMin with
    | some k, some s => ⟨true, depth + 1, some (s, 2 * k)⟩
    | _, _ =>
      if st.hasMaxUnfolding then ⟨true, (1 + 3 * depth) / 2, none⟩
      else ⟨false, depth, none⟩

/-- The `k` fields of the `length_limit` literals in a core. -/
def coreKs (core : List CoreElem) : List Nat :=
  core.filterMap fun e =>
    match e with
    | .lengthLimit _ k => some k
    | _ => none

/-- Whether the core contains the `max_unfolding` assumption literal. -/
def hasMaxLit (core : List CoreElem) : Bool :=
  core.any fun e =>
    match e with
    | .maxUnfolding => true
    | _ => false

/-- The running minimum used to describe the scan of `should_research`:
fold `min` over a list starting from an optional accumulator (`none`
plays the role of the initial `UINT_MAX`). -/
def minList : List Nat → Option Nat → Option Nat
  | [], acc => acc
  | k :: ks, none => minList ks (some k)
  | k :: ks, some m => minList ks (some (min k m))

/-! ## Automaton acceptance propagation (`propagate_accept`, lines 3356-3408) -/

/-- The view of a compiled `eautomaton` used by `propagate_accept`:
sink states, final states, and the moves out of a state as
(destination, guard id) pairs. -/
structure EAutomaton where
  isSinkState : Nat → Bool
  isFinalState : Nat → Bool
  movesFrom : Nat → List (Nat × Nat)

/-- Literals of the clause `propagate_accept` assembles: the negated
accept literal, `len(s) ≤ idx`, and the `step` literals for the moves
out of the source state. -/
inductive AccLit where
  | negAcc
  | leLen (i : Nat)
  | step (src dst guard i : Nat)
  deriving DecidableEq, Repr

/-- Actions taken by `propagate_accept`, in order: a conflict
(propagation of the false literal), unit propagations of the length
bounds `len(s) ≥ idx` / `len(s) > idx`, emission of the step clause,
and propagation of the negated `max_unfolding` assumption literal. -/
inductive AccAction where
  | conflict
  | propagateGeLen (i : Nat)
  | propagateGtLen (i : Nat)
  | thAxiom (lits : List AccLit)
  | propagateNegMaxUnfolding
  deriving DecidableEq, Repr

/-- Translation of `theory_seq::propagate_accept` (lines 3356-3408) for
a true literal `accept(s, idx, re, src)`: conflict on a sink state;
otherwise propagate the length bound according to finality, emit the
clause `¬acc ∨ (len ≤ idx)? ∨ ⋁ step`, and, when
`idx > m_max_unfolding_depth` and the assumption literal exists
(`m_max_unfolding_lit != null_literal`) and the scope level is
positive, propagate its negation. -/
def propagate_accept (aut : EAutomaton) (maxUnfoldingDepth : Nat)
    (maxUnfoldingLit : Option Nat) (scopeLevel : Nat)
    (idx src : Nat) : List AccAction :=
  if aut.isSinkState src then [.conflict]
  else
    let stepLits := (aut.movesFrom src).map fun mv => AccLit.step src mv.1 mv.2 idx
    let acts :=
      if aut.isFinalState src then
        [AccAction.propagateGeLen idx,
         AccAction.thAxiom (AccLit.negAcc :: AccLit.leLen idx :: stepLits)]
      else
        [AccAction.propagateGtLen idx,
         AccAction.thAxiom (AccLit.negAcc :: stepLits)]
    if maxUnfoldingDepth < idx && maxUnfoldingLit.isSome && 0 < scopeLevel then
      acts ++ [AccAction.propagateNegMaxUnfolding]
    else acts

/-- The step literals `propagate_accept` creates for the moves out of
`src` at position `idx` (the loop of lines 3387-3393). -/
def stepLitsOf (aut : EAutomaton) (src idx : Nat) : List AccLit :=
  (aut.movesFrom src).map fun mv => AccLit.step src mv.1 mv.2 idx

/-- A tiny automaton (no sinks, no final states, no moves) used as
concrete input in proofs. -/
def autPlain : EAutomaton :=
  { isSinkState := fun _ => false, isFinalState := fun _ => false,
    movesFrom := fun _ => [] }

/-- An automaton whose states are all sinks, used as concrete input in
proofs. -/
def autSink : EAutomaton :=
  { isSinkState := fun _ => true, isFinalState := fun _ => false,
    movesFrom := fun _ => [] }

/-! ## Not-contains resolution (`solve_nc`, lines 1310-1364) -/

/-- Truth values of the SAT context (`lbool`). -/
inductive LBool where
  | ltrue
  | lfalse
  | lundef
  deriving DecidableEq, Repr

/-- A not-contains constraint `nc`: the negated `contains(a,b)` with
`a` the haystack and `b` the needle, by id.  The accompanying guard
literal `len_gt` is created in `assign_eh` (line 3055). -/
structure NCons where
  hay : Nat
  needle : Nat
  deriving DecidableEq, Repr

/-- Actions of `solve_nc`: seed a length term into an equivalence
class (`add_length_to_eqc`), mark the guard literal relevant, or call
the axiom module's `unroll_not_contains`. -/
inductive NCAction where
  | addLengthToEqc (t : Nat)
  | markRelevant
  | unrollNotContains
  deriving DecidableEq, Repr

/-- Translation of `theory_seq::solve_nc` (lines 1310-1364): dispatch
on the current assignment of the constraint's `len_gt` guard literal.
The boolean is the return value (`true` removes the constraint from
`m_ncs` in `check_contains`, line 639). -/
def solve_nc (guardVal : LBool) (n : NCons) : Bool × List NCAction :=
  match guardVal with
  | .ltrue => (true, [.addLengthToEqc n.hay, .addLengthToEqc n.needle])
  | .lundef => (false, [.markRelevant])
  | .lfalse => (true, [.unrollNotContains])

/-- Semantics of the guard literal `len_gt` as constructed at
line 3055: `m_ax.mk_le(mk_sub(mk_len(se1), mk_len(se2)), -1)`, i.e.
`len(a) - len(b) ≤ -1`, evaluated on integer lengths. -/
def nc_len_gt_holds (lenA lenB : Int) : Bool :=
  lenA - lenB ≤ -1

/-! ## The solution map (`solution_map::update`, lines 139-153, and
`solution_map::find`, lines 194-213) -/

/-- The backtrackable solution map: the slot array `m_map` (modelled as
an association list over term ids — the C++ array holds at most one
slot per id) and the trail `m_updates`/`m_lhs`/`m_rhs`/`m_deps`
(an `INS` item is `true`, a `DEL` item `false`; each carries the lhs,
rhs and dependency of the affected entry). -/
structure SolutionMap where
  map : List (Nat × Nat × Nat)
  trail : List (Bool × Nat × Nat × Nat)
  deriving DecidableEq, Repr

/-- The empty solution map. -/
def SolutionMap.empty : SolutionMap :=
  ⟨[], []⟩

/-- Slot lookup: the entry stored for lhs `e`, as `(rhs, dep)`. -/
def smLookup (m : List (Nat × Nat × Nat)) (e : Nat) : Option (Nat × Nat) :=
  match m with
  | [] => none
  | (l, r, d) :: m' => if l = e then some (r, d) else smLookup m' e

/-- Slot write: overwrite the slot of `e` if present, else create it
(the C++ `insert` writes the array cell `m_map[e->get_id()]`). -/
def smInsert (m : List (Nat × Nat × Nat)) (e r d : Nat) : List (Nat × Nat × Nat) :=
  match m with
  | [] => [(e, r, d)]
  | (l, r0, d0) :: m' =>
    if l = e then (e, r, d) :: m' else (l, r0, d0) :: smInsert m' e r d

/-- Translation of `theory_seq::solution_map::update` (lines 139-153):
ignore `e = r`, trail a `DEL` item for an existing entry, write the
slot, trail the `INS` item.  (The cache reset at line 143 has no
observable effect on the map contents.) -/
def SolutionMap.update (sm : SolutionMap) (e r d : Nat) : SolutionMap :=
  if e = r then sm
  else
    let tr :=
      match smLookup sm.map e with
      | some (r0, d0) => sm.trail ++ [(false, e, r0, d0)]
      | none => sm.trail
    { map := smInsert sm.map e r d, trail := tr ++ [(true, e, r, d)] }

/-- One step of the `find` chain (the loop body of lines 198-203):
move to the stored rhs if a slot exists. -/
def smStep (sm : SolutionMap) (e : Nat) : Nat :=
  match smLookup sm.map e with
  | some (r, _) => r
  | none => e

/-- `n` steps of the `find` chain starting at `e`. -/
def smChase (sm : SolutionMap) : Nat → Nat → Nat
  | 0, e => e
  | n + 1, e => smChase sm n (smStep sm e)

/-- Termination of `solution_map::find` from `e`: the while loop of
lines 198-203 stops iff some iterate of the chain has no entry. -/
def FindTerminates (sm : SolutionMap) (e : Nat) : Prop :=
  ∃ n, smLookup sm.map (smChase sm n e) = none

/-- Translation of `theory_seq::solution_map::is_root` (lines 162-164):
a term is a root iff it has no slot. -/
def SolutionMap.is_root (sm : SolutionMap) (e : Nat) : Bool :=
  (smLookup sm.map e).isNone

/-- Apply a list of `update` operations in order. -/
def applyUpdates (sm : SolutionMap) : List (Nat × Nat × Nat) → SolutionMap
  | [] => sm
  | (e, r, d) :: us => applyUpdates (sm.update e r d) us

/-- The structural part of the solution-map invariants of spec
section 3: every stored entry has `lhs ≠ rhs`, and there is at most one
entry per lhs. -/
def EntriesOK (sm : SolutionMap) : Prop :=
  (∀ p ∈ sm.map, p.1 ≠ p.2.1) ∧ (sm.map.map Prod.fst).Nodup

/-- A solution map holding a two-entry cycle, produced by two plain
`update` operations. -/
def cycleMap : SolutionMap :=
  applyUpdates SolutionMap.empty [(0, 1, 0), (1, 0, 0)]

/-! ## Regex membership and automaton compilation
(`propagate_in_re`, lines 2632-2714, and `get_automaton`,
lines 3283-3297) -/

/-- The automaton memo of the theory: `m_re2aut` maps a regex id to the
compiled automaton (`none` for a failed compilation), and `m_automata`
records every compilation result including the failures — exactly the
list `is_solved` checks for null entries. -/
structure AutTable where
  re2aut : List (Nat × Option Nat)
  automata : List (Option Nat)
  deriving DecidableEq, Repr

/-- Association-list lookup for `m_re2aut`. -/
def reLookup (m : List (Nat × Option Nat)) (re : Nat) : Option (Option Nat) :=
  match m with
  | [] => none
  | (k, v) :: m' => if k = re then some v else reLookup m' re

/-- Translation of `theory_seq::get_automaton` (lines 3283-3297):
return the memoized result if present; otherwise run the builder
`m_mk_aut` and record the result — even a failure — in both
`m_automata` and `m_re2aut`. -/
def get_automaton (mkAut : Nat → Option Nat) (t : AutTable) (re : Nat) :
    Option Nat × AutTable :=
  match reLookup t.re2aut re with
  | some r => (r, t)
  | none =>
    let r := mkAut re
    (r, { re2aut := (re, r) :: t.re2aut, automata := t.automata ++ [r] })

/-- Outcome of `propagate_in_re` on a membership literal: an early
conflict from the rewritten closed form, an early no-op, the
`default_exception` naming the unsupported regex (line 2688), or the
instantiation of the initial-state axiom over the ε-closure of the
initial state. -/
inductive ReResult where
  | noop
  | conflict
  | unsupported (re : Nat)
  | axiomInit (accepts : List Nat)
  deriving DecidableEq, Repr

/-- Translation of the control flow of `theory_seq::propagate_in_re`
(lines 2632-2714).  `rwTruth` is the closed form the rewriter gives the
membership atom (lines 2636-2652): `some b` when it rewrites to a
truth constant, `none` otherwise.  `re` stands for the regex after the
complement (line 2660) and intersection (lines 2665-2680) adjustments;
`getAut` is `get_automaton` including its memo table.  When the
automaton is missing the function throws — the `unsupported` outcome —
before any clause is emitted. -/
def propagate_in_re (rwTruth : Option Bool) (is_true : Bool)
    (getAut : Nat → Option (List Nat)) (re : Nat) : ReResult :=
  match rwTruth with
  | some true => if !is_true then .conflict else .noop
  | some false => if is_true then .conflict else .noop
  | none =>
    match getAut re with
    | none => .unsupported re
    | some initClosure => .axiomInit initClosure

/-! ## Concrete length computation (`get_length(expr*, rational&)`,
lines 2802-2845) -/

/-- Sequence terms as traversed by `get_length`: concatenations, units,
the empty sequence, string literals, and any other term (referred to by
an id looked up in `m_has_length` and the arithmetic theory). -/
inductive LTerm where
  | concat (a b : LTerm)
  | unit (id : Nat)
  | empty
  | str (s : List Nat)
  | other (id : Nat)
  deriving DecidableEq, Repr

/-- The summation loop of `get_length` (lines 2810-2842): traverse the
term, adding `1` per unit, the literal's length per string constant,
`0` per empty sequence, and the arithmetic value of `len(c)` for any
other subterm — provided it is registered in `m_has_length`
(`hasLength`) and the arithmetic theory supplies a non-negative value
(`arithValue`, modelling `m_arith_value.get_value`).  Any other case
aborts with `none` (the C++ `return false`). -/
def lenSum (hasLength : Nat → Bool) (arithValue : Nat → Option ℚ) :
    LTerm → Option ℚ
  | .concat a b => do
      let va ← lenSum hasLength arithValue a
      let vb ← lenSum hasLength arithValue b
      pure (va + vb)
  | .unit _ => some 1
  | .empty => some 0
  | .str s => some (s.length : ℚ)
  | .other id =>
      if !hasLength id then none
      else
        match arithValue id with
        | some v => if ¬ v < 0 then some v else none
        | none => none

/-- Translation of `theory_seq::get_length(expr* e, rational& val)`
(lines 2802-2845): the traversal sum, subjected to the final
`val.is_int()` check of line 2844. -/
def get_length (hasLength : Nat → Bool) (arithValue : Nat → Option ℚ)
    (e : LTerm) : Option ℚ :=
  match lenSum hasLength arithValue e with
  | some v => if v.isInt then some v else none
  | none => none

/-! ## Canonization (`canonize`, lines 2345-2353, `expand`/`expand1`,
lines 2392-2525, over `solution_map::find`, lines 207-213) -/

/-- Terms as dispatched by `expand1` (lines 2423-2525): one constructor
per handled operator — concatenation, the empty sequence, string
literals, units, the boolean operators rebuilt there, both `index`
arities, `last_index`, if-then-else (condition by literal id), integer
numerals (for the third `index` argument built at line 2470), and an
opaque constructor for every term hitting the default branch
(line 2514). -/
inductive STerm where
  | var (n : Nat)
  | empty
  | str (s : List Nat)
  | unitT (c : STerm)
  | cat (a b : STerm)
  | pref (a b : STerm)
  | suff (a b : STerm)
  | cont (a b : STerm)
  | index2 (a b : STerm)
  | index3 (a b c : STerm)
  | lastIdx (a b : STerm)
  | iteE (c : Nat) (t e : STerm)
  | intLit (k : Int)
  | other (id : Nat)
  deriving DecidableEq, Repr

/-- The solution map `m_rep` as seen by the canonizer: entries mapping a
term to its replacement (dependencies are dropped here; the claims
settled against this embedding concern the term component of
`canonize`). -/
abbrev SolMap : Type :=
  List (STerm × STerm)

/-- Entry lookup in the solution map (the C++ slot access of
`solution_map::find`). -/
def lookupMap : SolMap → STerm → Option STerm
  | [], _ => none
  | (k, v) :: ρ, e => if k = e then some v else lookupMap ρ e

/-- Bounded chain chasing: follow entries for at most `n` jumps. -/
def findChase (ρ : SolMap) : Nat → STerm → STerm
  | 0, e => e
  | n + 1, e =>
    match lookupMap ρ e with
    | some r => findChase ρ n r
    | none => e

/-- Translation of `solution_map::find(expr* e)` (lines 207-213):
follow the chain to its end.  A chain in an acyclic map jumps through
pairwise distinct keys, so `ρ.length` jumps always reach the end; on a
cyclic map the C++ loop diverges and this embedding truncates. -/
def findMap (ρ : SolMap) (e : STerm) : STerm :=
  findChase ρ ρ.length e

/-- Translation of `theory_seq::expand`/`expand1`
(lines 2392-2525), with the explicit work list realized as structural
recursion and the per-scope cache dropped (the cache only memoizes
results of this same computation against an unchanged map).  The term
is first replaced by `m_rep.find` of it (line 2429), then rebuilt with
expanded children according to its operator; if-then-else consults the
assignment `σ` of its condition literal and fails on `l_undef`
(line 2510, `return false`); every unhandled operator returns itself
(line 2514).  The fuel only limits recursion depth; every theorem
below supplies enough of it. -/
def expandF (ρ : SolMap) (σ : Nat → LBool) : Nat → STerm → Option STerm
  | 0, _ => none
  | fuel + 1, e0 =>
    match findMap ρ e0 with
    | .cat a b => do
        let a1 ← expandF ρ σ fuel a
        let b1 ← expandF ρ σ fuel b
        pure (.cat a1 b1)
    | .empty => some .empty
    | .str s => some (.str s)
    | .pref a b => do
        let a1 ← expandF ρ σ fuel a
        let b1 ← expandF ρ σ fuel b
        pure (.pref a1 b1)
    | .suff a b => do
        let a1 ← expandF ρ σ fuel a
        let b1 ← expandF ρ σ fuel b
        pure (.suff a1 b1)
    | .cont a b => do
        let a1 ← expandF ρ σ fuel a
        let b1 ← expandF ρ σ fuel b
        pure (.cont a1 b1)
    | .unitT c => do
        let c1 ← expandF ρ σ fuel c
        pure (.unitT c1)
    | .index2 a b => do
        let a1 ← expandF ρ σ fuel a
        let b1 ← expandF ρ σ fuel b
        pure (.index3 a1 b1 (.intLit 0))
    | .index3 a b c => do
        let a1 ← expandF ρ σ fuel a
        let b1 ← expandF ρ σ fuel b
        pure (.index3 a1 b1 c)
    | .lastIdx a b => do
        let a1 ← expandF ρ σ fuel a
        let b1 ← expandF ρ σ fuel b
        pure (.lastIdx a1 b1)
    | .iteE c t e =>
        match σ c with
        | .ltrue => expandF ρ σ fuel t
        | .lfalse => expandF ρ σ fuel e
        | .lundef => none
    | .var n => some (.var n)
    | .intLit k => some (.intLit k)
    | .other id => some (.other id)

/-- Leaves of a concatenation, dropping empty sequences — the flattening
part of the modelled rewriter. -/
def catLeaves : STerm → List STerm
  | .cat a b => catLeaves a ++ catLeaves b
  | .empty => []
  | t => [t]

/-- Rebuild a right-associated concatenation from a list of leaves. -/
def catOfList : List STerm → STerm
  | [] => .empty
  | [t] => t
  | t :: ts => .cat t (catOfList ts)

/-- Modelled from the spec: the external term rewriter `m_rewrite`
applied by `canonize` at line 2350 ("applying the term rewriter on the
rebuilt node", spec section 4.3; "algebraic simplification of sequence
... expressions", section 1).  It is modelled as the canonical sequence
simplification: recursively flatten nested concatenations and remove
empty-sequence sub-terms, leaving all other operators in place
(character coalescing is disabled by the constructor, line 317). -/
def rwSeq : STerm → STerm
  | .cat a b => catOfList (catLeaves (rwSeq a) ++ catLeaves (rwSeq b))
  | .unitT c => .unitT (rwSeq c)
  | .pref a b => .pref (rwSeq a) (rwSeq b)
  | .suff a b => .suff (rwSeq a) (rwSeq b)
  | .cont a b => .cont (rwSeq a) (rwSeq b)
  | .index2 a b => .index2 (rwSeq a) (rwSeq b)
  | .index3 a b c => .index3 (rwSeq a) (rwSeq b) (rwSeq c)
  | .lastIdx a b => .lastIdx (rwSeq a) (rwSeq b)
  | .iteE c t e => .iteE c (rwSeq t) (rwSeq e)
  | .var n => .var n
  | .empty => .empty
  | .str s => .str s
  | .intLit k => .intLit k
  | .other id => .other id

/-- Translation of `theory_seq::canonize` (lines 2345-2353): expand
through the solution map, then apply the rewriter to the result. -/
def canonizeF (ρ : SolMap) (σ : Nat → LBool) (fuel : Nat) (e : STerm) :
    Option STerm :=
  (expandF ρ σ fuel e).map rwSeq

/-- Number of nodes of a term; used to provide sufficient expansion
fuel. -/
def sizeE : STerm → Nat
  | .cat a b => 1 + sizeE a + sizeE b
  | .unitT c => 1 + sizeE c
  | .pref a b => 1 + sizeE a + sizeE b
  | .suff a b => 1 + sizeE a + sizeE b
  | .cont a b => 1 + sizeE a + sizeE b
  | .index2 a b => 1 + sizeE a + sizeE b
  | .index3 a b c => 1 + sizeE a + sizeE b + sizeE c
  | .lastIdx a b => 1 + sizeE a + sizeE b
  | .iteE _ t e => 1 + sizeE t + sizeE e
  | _ => 1

/-- Terms that may be keyed in the solution map under the search-time
discipline: variables (committed by `solve_unit_eq`) and string
literals (keyed by `add_elim_string_axiom`, line 2627). -/
def isVarOrStr : STerm → Bool
  | .var _ => true
  | .str _ => true
  | _ => false

/-- Leaf atoms produced by the modelled rewriter: anything that is
neither a concatenation nor the empty sequence. -/
def isAtomC : STerm → Bool
  | .cat _ _ => false
  | .empty => false
  | _ => true

/-- The solution map discipline on keys: every entry is keyed by a
variable or a string literal. -/
def VarStrKeys (ρ : SolMap) : Prop :=
  ∀ p ∈ ρ, isVarOrStr p.1 = true

/-- The acyclicity discipline: every `find` chain reaches a root (the
spec's "chains terminate" invariant, section 4.2). -/
def Rooted (ρ : SolMap) : Prop :=
  ∀ e, lookupMap ρ (findMap ρ e) = none

/-- Stability of a term under one more expansion round: no sub-term at
an expanded position has a solution-map entry, and no if-then-else
remains at an expanded position.  This is the shape of every
`expandF` output over a disciplined map. -/
def Reduced (ρ : SolMap) : STerm → Prop
  | .cat a b => lookupMap ρ (.cat a b) = none ∧ Reduced ρ a ∧ Reduced ρ b
  | .unitT c => lookupMap ρ (.unitT c) = none ∧ Reduced ρ c
  | .pref a b => lookupMap ρ (.pref a b) = none ∧ Reduced ρ a ∧ Reduced ρ b
  | .suff a b => lookupMap ρ (.suff a b) = none ∧ Reduced ρ a ∧ Reduced ρ b
  | .cont a b => lookupMap ρ (.cont a b) = none ∧ Reduced ρ a ∧ Reduced ρ b
  | .index2 _ _ => False
  | .index3 a b c => lookupMap ρ (.index3 a b c) = none ∧ Reduced ρ a ∧ Reduced ρ b
  | .lastIdx a b => lookupMap ρ (.lastIdx a b) = none ∧ Reduced ρ a ∧ Reduced ρ b
  | .iteE _ _ _ => False
  | .var n => lookupMap ρ (.var n) = none
  | .empty => lookupMap ρ .empty = none
  | .str s => lookupMap ρ (.str s) = none
  | .intLit k => lookupMap ρ (.intLit k) = none
  | .other id => lookupMap ρ (.other id) = none

/-- A solution map with an entry keyed by a rebuildable compound term,
as `mk_value` (line 2082) creates during model construction: the
variable `v0` maps to `t1`, and the concatenation `t1 ++ t2` maps to
`t3`. -/
def mapCompoundKey : SolMap :=
  [(STerm.var 0, STerm.other 1),
   (STerm.cat (STerm.other 1) (STerm.other 2), STerm.other 3)]

/-- A solution map respecting the search-time discipline: one variable
entry. -/
def mapVarKey : SolMap :=
  [(STerm.var 0, STerm.other 1)]

end Z3Seq

namespace Z3Seq

/-- C1 (amended): at every final-check round the cascade returns
`FC_CONTINUE` exactly when some rule fires, and the rule through which
it returns is the first firing rule in the order actually coded in
`final_check_eh` — with the config-gated `len_based_split` tried
between the `fixed_length (zero)` and `fixed_length (general)`
passes. -/
theorem C1_cascade_first_fire (s : FCState) (h : s.hasSeq = true) :
    (final_check_eh s = FinalCheckStatus.FC_CONTINUE ↔ (firedRule s).isSome) ∧
    firedRule s = cascadeOrder.find? (ruleFires s) := by
  obtain ⟨hs, e1, e2, e3, e4, e5, sw, e6, e7, e8, e9, e10, e11, e12, e13, e14, e15, qs, au, nc⟩ := s
  simp only at h
  subst h
  cases e1 with
  | true => simp [final_check_eh, firedRule, cascadeOrder, ruleFires, List.find?]
  | false =>
    cases e2 with
    | true => simp [final_check_eh, firedRule, cascadeOrder, ruleFires, List.find?]
    | false =>
      cases e3 with
      | true => simp [final_check_eh, firedRule, cascadeOrder, ruleFires, List.find?]
      | false =>
        cases e4 with
        | true => simp [final_check_eh, firedRule, cascadeOrder, ruleFires, List.find?]
        | false =>
          cases e5 with
          | true => simp [final_check_eh, firedRule, cascadeOrder, ruleFires, List.find?]
          | false =>
            cases sw with
            | true =>
              cases e6 with
              | true => simp [final_check_eh, firedRule, cascadeOrder, ruleFires, List.find?]
              | false =>
                cases e7 with
                | true => simp [final_check_eh, firedRule, cascadeOrder, ruleFires, List.find?]
                | false =>
                  cases e8 with
                  | true => simp [final_check_eh, firedRule, cascadeOrder, ruleFires, List.find?]
                  | false =>
                    cases e9 with
                    | true => simp [final_check_eh, firedRule, cascadeOrder, ruleFires, List.find?]
                    | false =>
                      cases e10 with
                      | true => simp [final_check_eh, firedRule, cascadeOrder, ruleFires, List.find?]
                      | false =>
                        cases e11 with
                        | true => simp [final_check_eh, firedRule, cascadeOrder, ruleFires, List.find?]
                        | false =>
                          cases e12 with
                          | true => simp [final_check_eh, firedRule, cascadeOrder, ruleFires, List.find?]
                          | false =>
                            cases e13 with
                            | true => simp [final_check_eh, firedRule, cascadeOrder, ruleFires, List.find?]
                            | false =>
                              cases e14 with
                              | false => simp [final_check_eh, firedRule, cascadeOrder, ruleFires, List.find?]
                              | true =>
                                cases e15 with
                                | true => simp [final_check_eh, firedRule, cascadeOrder, ruleFires, List.find?]
                                | false =>
                                  refine ⟨?_, rfl⟩
                                  simp only [final_check_eh, firedRule]
                                  norm_num
                                  split <;> simp
            | false =>
              cases e7 with
              | true => simp [final_check_eh, firedRule, cascadeOrder, ruleFires, List.find?]
              | false =>
                cases e8 with
                | true => simp [final_check_eh, firedRule, cascadeOrder, ruleFires, List.find?]
                | false =>
                  cases e9 with
                  | true => simp [final_check_eh, firedRule, cascadeOrder, ruleFires, List.find?]
                  | false =>
                    cases e10 with
                    | true => simp [final_check_eh, firedRule, cascadeOrder, ruleFires, List.find?]
                    | false =>
                      cases e11 with
                      | true => simp [final_check_eh, firedRule, cascadeOrder, ruleFires, List.find?]
                      | false =>
                        cases e12 with
                        | true => simp [final_check_eh, firedRule, cascadeOrder, ruleFires, List.find?]
                        | false =>
                          cases e13 with
                          | true => simp [final_check_eh, firedRule, cascadeOrder, ruleFires, List.find?]
                          | false =>
                            cases e14 with
                            | false => simp [final_check_eh, firedRule, cascadeOrder, ruleFires, List.find?]
                            | true =>
                              cases e15 with
                              | true => simp [final_check_eh, firedRule, cascadeOrder, ruleFires, List.find?]
                              | false =>
                                refine ⟨?_, rfl⟩
                                simp only [final_check_eh, firedRule]
                                norm_num
                                split <;> simp

/-- C1, witness for `C1_cascade_first_fire` at a concrete state. -/
theorem C1_cascade_first_fire_witness :
    ({ quietState with solveNqs := true } : FCState).hasSeq = true ∧
    ((final_check_eh { quietState with solveNqs := true } = FinalCheckStatus.FC_CONTINUE ↔
      (firedRule { quietState with solveNqs := true }).isSome) ∧
     firedRule { quietState with solveNqs := true } =
       cascadeOrder.find? (ruleFires { quietState with solveNqs := true })) :=
  ⟨rfl, C1_cascade_first_fire { quietState with solveNqs := true } rfl⟩

/-- C1, counterexample: in a round where `fixed_length (zero)` does not
fire but both `len_based_split` (with `m_params.m_split_w_len` set) and
`fixed_length (general)` would fire, the cascade returns through
`len_based_split` — `fixed_length (general)` is tried after it, not
before it as the claim states. -/
theorem C1_rule_order_counterexample :
    firedRule { quietState with splitWLen := true, lenBasedSplit := true,
                                fixedLengthGeneral := true } =
      some RuleName.lenBasedSplit ∧
    ruleFires { quietState with splitWLen := true, lenBasedSplit := true,
                                fixedLengthGeneral := true }
      RuleName.fixedLengthGeneral = true ∧
    final_check_eh { quietState with splitWLen := true, lenBasedSplit := true,
                                     fixedLengthGeneral := true } =
      FinalCheckStatus.FC_CONTINUE := by
  decide

/-- Helper: the boolean `is_solved` agrees with the propositional
description of its three checks. -/
theorem is_solved_iff (s : FCState) :
    is_solved s = true ↔ (s.eqs = [] ∧ (∀ a ∈ s.automata, a = true) ∧ s.ncs = []) := by
  simp only [is_solved]
  constructor
  · intro hh
    by_cases h1 : s.eqs.isEmpty
    · by_cases h2 : s.automata.any (fun a => !a)
      · simp [h1, h2] at hh
      · by_cases h3 : s.ncs.isEmpty
        · refine ⟨List.isEmpty_iff.mp h1, ?_, List.isEmpty_iff.mp h3⟩
          intro a ha
          by_contra hfa
          have : s.automata.any (fun a => !a) = true :=
            List.any_eq_true.mpr ⟨a, ha, by simp [Bool.not_eq_true] at hfa ⊢; exact hfa⟩
          simp [this] at h2
        · simp [h1, h2, h3] at hh
    · simp [h1] at hh
  · rintro ⟨h1, h2, h3⟩
    have e1 : s.eqs.isEmpty = true := List.isEmpty_iff.mpr h1
    have e3 : s.ncs.isEmpty = true := List.isEmpty_iff.mpr h3
    have e2 : s.automata.any (fun a => !a) = false := by
      rw [← Bool.not_eq_true, List.any_eq_true]
      rintro ⟨a, ha, hna⟩
      have := h2 a ha
      simp [this] at hna
    simp [e1, e2, e3]

/-- C6: when no cascade rule fires, the final check returns `FC_DONE`
exactly when the equation store is empty, every tracked automaton
compiled, and no not-contains constraint remains, and `FC_GIVEUP`
otherwise. -/
theorem C6_done_iff_solved (s : FCState) (h : s.hasSeq = true)
    (hq : ∀ r, ruleFires s r = false) :
    (final_check_eh s = FinalCheckStatus.FC_DONE ↔
       s.eqs = [] ∧ (∀ a ∈ s.automata, a = true) ∧ s.ncs = []) ∧
    (final_check_eh s = FinalCheckStatus.FC_GIVEUP ↔
       ¬(s.eqs = [] ∧ (∀ a ∈ s.automata, a = true) ∧ s.ncs = [])) := by
  have h1 := hq .solveEqs
  have h2 := hq .checkLts
  have h3 := hq .solveNqs
  have h4 := hq .checkContains
  have h5 := hq .fixedLengthZero
  have h6 := hq .lenBasedSplit
  have h7 := hq .fixedLengthGeneral
  have h8 := hq .checkIntString
  have h9 := hq .reduceLengthEq
  have h10 := hq .branchUnitVariable
  have h11 := hq .branchBinaryVariable
  have h12 := hq .branchVariable
  have h13 := hq .checkLengthCoherence
  have h14 := hq .extensionality
  have h15 := hq .branchNqs
  simp only [ruleFires] at h1 h2 h3 h4 h5 h6 h7 h8 h9 h10 h11 h12 h13 h14 h15
  rw [← is_solved_iff]
  cases hs : is_solved s with
  | false =>
    simp only [final_check_eh, h, h1, h2, h3, h4, h5, h6, h7, h8, h9, h10, h11,
      h12, h13, h14, h15, hs]
    simp
  | true =>
    simp only [final_check_eh, h, h1, h2, h3, h4, h5, h6, h7, h8, h9, h10, h11,
      h12, h13, h14, h15, hs]
    simp

/-- C6, witness for `C6_done_iff_solved` at the quiet state. -/
theorem C6_done_iff_solved_witness :
    quietState.hasSeq = true ∧ (∀ r, ruleFires quietState r = false) ∧
    ((final_check_eh quietState = FinalCheckStatus.FC_DONE ↔
       quietState.eqs = [] ∧ (∀ a ∈ quietState.automata, a = true) ∧ quietState.ncs = []) ∧
     (final_check_eh quietState = FinalCheckStatus.FC_GIVEUP ↔
       ¬(quietState.eqs = [] ∧ (∀ a ∈ quietState.automata, a = true) ∧ quietState.ncs = []))) :=
  ⟨rfl, fun r => by cases r <;> rfl,
   C6_done_iff_solved quietState rfl (fun r => by cases r <;> rfl)⟩

end Z3Seq

namespace Z3Seq

/-- C2, counterexample: for `itos(n) = "042"` the code's `solve_itos`
propagates the leading-digit constraint `digit2int('0') ≥ 1`
(line 1013), which is false under the digit semantics even at the
claimed model `n = 42` — so the input is not satisfiable with
`n = 42`. -/
theorem C2_itos_042_counterexample :
    (solve_itos (fun _ => false) units042).2 = true ∧
    ItosLit.ge (ArithExpr.digit2int '0') 1 ∈ (solve_itos (fun _ => false) units042).1 ∧
    itosLitHolds 42 (ItosLit.ge (ArithExpr.digit2int '0') 1) = false := by
  decide

/-- C2 (amended): on `itos(n) = "042"` the solver propagates the
base-10 equation — which forces exactly `n = 42` — together with
`digit2int('0') ≥ 1`, which no valuation satisfies; hence the input is
UNSAT both under `n ≥ 0` and under `n < 0`. -/
theorem C2_itos_042_unsat :
    itosNumLoop units042 none = some num042 ∧
    ItosLit.eqNum .nvar num042 ∈ (solve_itos (fun _ => false) units042).1 ∧
    (∀ nval : Int, itosLitHolds nval (ItosLit.eqNum .nvar num042) = true ↔ nval = 42) ∧
    (∀ nval : Int,
      ¬ ∀ l ∈ (solve_itos (fun _ => false) units042).1, itosLitHolds nval l = true) := by
  refine ⟨by decide, by decide, ?_, ?_⟩
  · intro nval
    simp [itosLitHolds, evalArith, digit2intVal, num042]
  · intro nval hall
    have hmem : ItosLit.ge (ArithExpr.digit2int '0') 1 ∈
        (solve_itos (fun _ => false) units042).1 := by decide
    have hh := hall _ hmem
    simp [itosLitHolds, evalArith, digit2intVal] at hh

/-- C5, counterexample: at lengths `|a| = 2`, `|b| = 1` the claimed
guard `|a| > |b|` holds while the guard literal the code builds at
line 3055 (`|a| - |b| ≤ -1`) is false — the constraint's guard is not
`|a| > |b|`. -/
theorem C5_guard_orientation_counterexample :
    nc_len_gt_holds 2 1 = false ∧ decide ((2 : Int) > (1 : Int)) = true := by
  decide

/-- C5 (amended): the guard literal of a not-contains constraint is
`|a| < |b|` (built as `|a| - |b| ≤ -1`), and `solve_nc` dispatches on
it as the claim describes: guard true seeds both lengths and
discharges, undecided marks relevant and defers, false unrolls
not-contains and discharges. -/
theorem C5_solve_nc_dispatch (n : NCons) :
    (∀ la lb : Int, nc_len_gt_holds la lb = decide (la < lb)) ∧
    solve_nc .ltrue n = (true, [.addLengthToEqc n.hay, .addLengthToEqc n.needle]) ∧
    solve_nc .lundef n = (false, [.markRelevant]) ∧
    solve_nc .lfalse n = (true, [.unrollNotContains]) := by
  refine ⟨?_, rfl, rfl, rfl⟩
  intro la lb
  simp only [nc_len_gt_holds, decide_eq_decide]
  omega

/-- C9: `propagate_in_re` ends in the exception naming the regex
exactly when the membership did not rewrite to a truth constant and the
automaton construction failed; no clause or propagation is produced in
that case. -/
theorem C9_unsupported_regex (rwTruth : Option Bool) (is_true : Bool)
    (getAut : Nat → Option (List Nat)) (re : Nat) :
    propagate_in_re rwTruth is_true getAut re = .unsupported re ↔
      rwTruth = none ∧ getAut re = none := by
  cases rwTruth with
  | some b => cases b <;> cases is_true <;> simp [propagate_in_re]
  | none => cases h : getAut re <;> simp [propagate_in_re, h]

/-- Helper: the traversal sum of `get_length` is non-negative — every
accepted summand is. -/
theorem lenSum_nonneg (hasLength : Nat → Bool) (arithValue : Nat → Option ℚ) :
    ∀ e v, lenSum hasLength arithValue e = some v → 0 ≤ v := by
  intro e
  induction e with
  | concat a b iha ihb =>
    intro v h
    simp only [lenSum, Option.bind_eq_bind] at h
    cases hva : lenSum hasLength arithValue a with
    | none => simp [hva] at h
    | some va =>
      cases hvb : lenSum hasLength arithValue b with
      | none => simp [hva, hvb] at h
      | some vb =>
        simp [hva, hvb] at h
        subst h
        exact add_nonneg (iha va hva) (ihb vb hvb)
  | unit id =>
    intro v h
    injection h with h
    subst h
    norm_num
  | empty =>
    intro v h
    injection h with h
    subst h
    norm_num
  | str s =>
    intro v h
    injection h with h
    subst h
    positivity
  | other id =>
    intro v h
    simp only [lenSum] at h
    by_cases h1 : hasLength id
    · simp only [h1, Bool.not_true, Bool.false_eq_true, if_false] at h
      cases h2 : arithValue id with
      | none => simp [h2] at h
      | some w =>
        simp only [h2] at h
        by_cases h3 : w < 0
        · simp [h3] at h
        · simp only [h3, not_false_eq_true, if_true] at h
          injection h with h
          subst h
          exact le_of_not_lt h3
    · simp [h1] at h

/-- C10: whenever `get_length` succeeds the computed value is a
non-negative integer, and it fails whenever the traversal sum fails or
the total is not an integer. -/
theorem C10_get_length_nonneg_int (hasLength : Nat → Bool)
    (arithValue : Nat → Option ℚ) :
    (∀ e v, get_length hasLength arithValue e = some v → 0 ≤ v ∧ v.isInt = true) ∧
    (∀ e v, lenSum hasLength arithValue e = some v → v.isInt = false →
      get_length hasLength arithValue e = none) ∧
    (∀ e, lenSum hasLength arithValue e = none →
      get_length hasLength arithValue e = none) := by
  refine ⟨?_, ?_, ?_⟩
  · intro e v h
    simp only [get_length] at h
    cases hs : lenSum hasLength arithValue e with
    | none => simp [hs] at h
    | some w =>
      simp only [hs] at h
      by_cases hi : w.isInt
      · simp only [hi, if_true] at h
        injection h with h
        subst h
        exact ⟨lenSum_nonneg hasLength arithValue e w hs, hi⟩
      · simp [hi] at h
  · intro e v h hi
    simp [get_length, h, hi]
  · intro e h
    simp [get_length, h]

/-- C10, witness for `C10_get_length_nonneg_int` on a concrete term
with a unit, a two-character literal and an oracle-valued sub-term. -/
theorem C10_get_length_witness :
    get_length (fun _ => true) (fun _ => some 2)
      (LTerm.concat (.unit 0) (.concat (.str [65, 66]) (.other 7))) = some 5 ∧
    (0 ≤ (5 : ℚ) ∧ (5 : ℚ).isInt = true) :=
  ⟨by norm_num [get_length, lenSum, Rat.isInt],
   (C10_get_length_nonneg_int (fun _ => true) (fun _ => some 2)).1
     (LTerm.concat (.unit 0) (.concat (.str [65, 66]) (.other 7))) 5
     (by norm_num [get_length, lenSum, Rat.isInt])⟩

end Z3Seq

namespace Z3Seq

/-- Helper: the scan loop's running minimum is the `min`-fold of the
`length_limit` bounds it traverses. -/
theorem scanCore_kMin (rand : Nat → Nat) :
    ∀ (es : List CoreElem) (st : ScanState),
      (scanCore rand es st).kMin = minList (coreKs es) st.kMin := by
  intro es
  induction es with
  | nil => intro st; rfl
  | cons x es ih =>
    intro st
    cases x with
    | maxUnfolding => simpa [scanCore, coreKs] using ih _
    | other id => simpa [scanCore, coreKs] using ih _
    | lengthLimit s' k' =>
      cases hk : st.kMin with
      | none =>
        simp [scanCore, coreKs, hk, ih, minList]
      | some km =>
        by_cases h1 : k' < km
        · simp [scanCore, coreKs, hk, h1, ih, minList, Nat.min_eq_left (Nat.le_of_lt h1)]
        · by_cases h2 : k' = km
          · subst h2
            by_cases h3 : rand st.ridx % (st.n + 1) = 0 <;>
              simp [scanCore, coreKs, hk, h1, h3, ih, minList, Nat.min_self]
          · have h4 : km ≤ k' := Nat.le_of_not_lt h1
            simp [scanCore, coreKs, hk, h1, h2, ih, minList,
              Nat.min_eq_right h4]

/-- Helper: the scan loop records whether the core holds the
`max_unfolding` literal. -/
theorem scanCore_hasMax (rand : Nat → Nat) :
    ∀ (es : List CoreElem) (st : ScanState),
      (scanCore rand es st).hasMaxUnfolding = (st.hasMaxUnfolding || hasMaxLit es) := by
  intro es
  induction es with
  | nil => intro st; simp [scanCore, hasMaxLit]
  | cons x es ih =>
    intro st
    cases x with
    | maxUnfolding => simp [scanCore, hasMaxLit, ih]
    | other id => simp [scanCore, hasMaxLit, ih]
    | lengthLimit s' k' =>
      cases hk : st.kMin with
      | none => simp [scanCore, hasMaxLit, hk, ih]
      | some km =>
        by_cases h1 : k' < km
        · simp [scanCore, hasMaxLit, hk, h1, ih]
        · by_cases h2 : k' = km
          · subst h2
            by_cases h3 : rand st.ridx % (st.n + 1) = 0 <;>
              simp [scanCore, hasMaxLit, hk, h1, h3, ih]
          · simp [scanCore, hasMaxLit, hk, h1, h2, ih]

/-- Helper: the scan either leaves the running pair untouched or ends
with a pair `(s_min, k_min)` carrying a `length_limit(s_min, k_min)`
literal of the traversed core. -/
theorem scanCore_pair (rand : Nat → Nat) :
    ∀ (es : List CoreElem) (st : ScanState),
      ((scanCore rand es st).kMin = st.kMin ∧ (scanCore rand es st).sMin = st.sMin) ∨
      (∃ s k, CoreElem.lengthLimit s k ∈ es ∧
        (scanCore rand es st).kMin = some k ∧ (scanCore rand es st).sMin = some s) := by
  intro es
  induction es with
  | nil => intro st; exact Or.inl ⟨rfl, rfl⟩
  | cons x es ih =>
    intro st
    cases x with
    | maxUnfolding =>
      rcases ih { st with hasMaxUnfolding := true } with ⟨h1, h2⟩ | ⟨s, k, hm, h1, h2⟩
      · exact Or.inl ⟨by simpa using h1, by simpa using h2⟩
      · exact Or.inr ⟨s, k, List.mem_cons_of_mem _ hm, h1, h2⟩
    | other id =>
      rcases ih st with ⟨h1, h2⟩ | ⟨s, k, hm, h1, h2⟩
      · exact Or.inl ⟨h1, h2⟩
      · exact Or.inr ⟨s, k, List.mem_cons_of_mem _ hm, h1, h2⟩
    | lengthLimit s' k' =>
      cases hkm : st.kMin with
      | none =>
        have hred : scanCore rand (CoreElem.lengthLimit s' k' :: es) st =
            scanCore rand es { st with kMin := some k', sMin := some s', n := 0 } := by
          simp [scanCore, hkm]
        rw [hred]
        rcases ih { st with kMin := some k', sMin := some s', n := 0 } with
          ⟨h1, h2⟩ | ⟨s, k, hm, h1, h2⟩
        · exact Or.inr ⟨s', k', List.mem_cons_self _ _, by simpa using h1, by simpa using h2⟩
        · exact Or.inr ⟨s, k, List.mem_cons_of_mem _ hm, h1, h2⟩
      | some km =>
        by_cases h1 : k' < km
        · have hred : scanCore rand (CoreElem.lengthLimit s' k' :: es) st =
              scanCore rand es { st with kMin := some k', sMin := some s', n := 0 } := by
            simp [scanCore, hkm, h1]
          rw [hred]
          rcases ih { st with kMin := some k', sMin := some s', n := 0 } with
            ⟨ha, hb⟩ | ⟨s, k, hm, ha, hb⟩
          · exact Or.inr ⟨s', k', List.mem_cons_self _ _, by simpa using ha, by simpa using hb⟩
          · exact Or.inr ⟨s, k, List.mem_cons_of_mem _ hm, ha, hb⟩
        · by_cases h2 : k' = km
          · by_cases h3 : rand st.ridx % (st.n + 1) = 0
            · have hred : scanCore rand (CoreElem.lengthLimit s' k' :: es) st =
                  scanCore rand es
                    { st with sMin := some s', n := st.n + 1, ridx := st.ridx + 1 } := by
                simp [scanCore, hkm, h1, h2, h3]
              rw [hred]
              rcases ih { st with sMin := some s', n := st.n + 1, ridx := st.ridx + 1 } with
                ⟨ha, hb⟩ | ⟨s, k, hm, ha, hb⟩
              · refine Or.inr ⟨s', km, ?_, ?_, by simpa using hb⟩
                · rw [← h2]; exact List.mem_cons_self _ _
                · rw [ha]; simpa using hkm
              · exact Or.inr ⟨s, k, List.mem_cons_of_mem _ hm, ha, hb⟩
            · have hred : scanCore rand (CoreElem.lengthLimit s' k' :: es) st =
                  scanCore rand es { st with n := st.n + 1, ridx := st.ridx + 1 } := by
                simp [scanCore, hkm, h1, h2, h3]
              rw [hred]
              rcases ih { st with n := st.n + 1, ridx := st.ridx + 1 } with
                ⟨ha, hb⟩ | ⟨s, k, hm, ha, hb⟩
              · exact Or.inl ⟨Eq.trans (by simpa using ha) hkm, by simpa using hb⟩
              · exact Or.inr ⟨s, k, List.mem_cons_of_mem _ hm, ha, hb⟩
          · have hred : scanCore rand (CoreElem.lengthLimit s' k' :: es) st =
                scanCore rand es st := by
              simp [scanCore, hkm, h1, h2]
            rw [hred]
            rcases ih st with ⟨ha, hb⟩ | ⟨s, k, hm, ha, hb⟩
            · exact Or.inl ⟨ha.trans hkm, hb⟩
            · exact Or.inr ⟨s, k, List.mem_cons_of_mem _ hm, ha, hb⟩

end Z3Seq

namespace Z3Seq

/-- Helper: a fold result of `minList` bounds the accumulator and every
element of the list from below. -/
theorem minList_le : ∀ (ks : List Nat) (acc : Option Nat) (m : Nat),
    minList ks acc = some m →
    (∀ a, acc = some a → m ≤ a) ∧ (∀ x ∈ ks, m ≤ x) := by
  intro ks
  induction ks with
  | nil =>
    intro acc m h
    refine ⟨?_, by simp⟩
    intro a ha
    rw [ha] at h
    simp [minList] at h
    omega
  | cons k ks ih =>
    intro acc m h
    cases acc with
    | none =>
      have hrec := ih (some k) m (by simpa [minList] using h)
      refine ⟨by simp, ?_⟩
      intro x hx
      rcases List.mem_cons.mp hx with rfl | hx
      · exact hrec.1 x rfl
      · exact hrec.2 x hx
    | some a =>
      have hrec := ih (some (min k a)) m (by simpa [minList] using h)
      have hma := hrec.1 _ rfl
      refine ⟨?_, ?_⟩
      · intro a' ha'
        injection ha' with ha'
        subst ha'
        exact le_trans hma (Nat.min_le_right _ _)
      · intro x hx
        rcases List.mem_cons.mp hx with rfl | hx
        · exact le_trans hma (Nat.min_le_left _ _)
        · exact hrec.2 x hx

/-- Helper: a `length_limit(s,k)` literal of the core contributes its
bound to `coreKs`. -/
theorem mem_coreKs {s k : Nat} {core : List CoreElem}
    (h : CoreElem.lengthLimit s k ∈ core) : k ∈ coreKs core :=
  List.mem_filterMap.mpr ⟨_, h, rfl⟩

/-- C3 (amended): when the unsat core holds `length_limit` literals,
`should_research` doubles the minimal such bound for one of its terms,
increments the depth by one, and requests a restart — this branch takes
precedence over the `max_unfolding` one; the `(1+3d)/2` depth update
happens only when the core holds `max_unfolding` and no `length_limit`
literal; with neither literal no restart is requested. -/
theorem C3_should_research_updates (depth : Nat) (rand : Nat → Nat)
    (core : List CoreElem) :
    (∀ k, minList (coreKs core) none = some k →
      (should_research true depth rand core).restart = true ∧
      (should_research true depth rand core).newDepth = depth + 1 ∧
      (∃ s, CoreElem.lengthLimit s k ∈ core ∧
        (should_research true depth rand core).newLimit = some (s, 2 * k)) ∧
      (∀ s' k', CoreElem.lengthLimit s' k' ∈ core → k ≤ k')) ∧
    (coreKs core = [] → hasMaxLit core = true →
      should_research true depth rand core = ⟨true, (1 + 3 * depth) / 2, none⟩) ∧
    (coreKs core = [] → hasMaxLit core = false →
      should_research true depth rand core = ⟨false, depth, none⟩) := by
  refine ⟨?_, ?_, ?_⟩
  · intro k hmin
    have hkm : (scanCore rand core ⟨none, none, 0, false, 0⟩).kMin = some k := by
      rw [scanCore_kMin]
      exact hmin
    rcases scanCore_pair rand core ⟨none, none, 0, false, 0⟩ with ⟨h1, _⟩ | ⟨s, k0, hm, h1, h2⟩
    · rw [hkm] at h1
      simp at h1
    · have hk0 : k0 = k := by
        rw [h1] at hkm
        exact Option.some_inj.mp hkm
      subst hk0
      have hres : should_research true depth rand core = ⟨true, depth + 1, some (s, 2 * k0)⟩ := by
        simp [should_research, h1, h2]
      refine ⟨by simp [hres], by simp [hres], ⟨s, hm, by simp [hres]⟩, ?_⟩
      intro s' k' hmem
      exact (minList_le (coreKs core) none k0 hmin).2 k' (mem_coreKs hmem)
  · intro hks hmax
    have hkm : (scanCore rand core ⟨none, none, 0, false, 0⟩).kMin = none := by
      rw [scanCore_kMin, hks]
      rfl
    have hM : (scanCore rand core ⟨none, none, 0, false, 0⟩).hasMaxUnfolding = true := by
      rw [scanCore_hasMax]
      simpa using hmax
    simp [should_research, hkm, hM]
  · intro hks hmax
    have hkm : (scanCore rand core ⟨none, none, 0, false, 0⟩).kMin = none := by
      rw [scanCore_kMin, hks]
      rfl
    have hM : (scanCore rand core ⟨none, none, 0, false, 0⟩).hasMaxUnfolding = false := by
      rw [scanCore_hasMax]
      simpa using hmax
    simp [should_research, hkm, hM]

/-- C3, witness for `C3_should_research_updates` on a singleton
length-limit core. -/
theorem C3_should_research_witness :
    minList (coreKs [CoreElem.lengthLimit 3 5]) none = some 5 ∧
    (should_research true 2 (fun _ => 0) [CoreElem.lengthLimit 3 5]).restart = true ∧
    (should_research true 2 (fun _ => 0) [CoreElem.lengthLimit 3 5]).newDepth = 3 ∧
    (should_research true 2 (fun _ => 0) [CoreElem.lengthLimit 3 5]).newLimit = some (3, 10) := by
  have h := (C3_should_research_updates 2 (fun _ => 0) [CoreElem.lengthLimit 3 5]).1 5 (by decide)
  exact ⟨by decide, h.1, h.2.1, by decide⟩

/-- C3, counterexample: on a core containing both a `length_limit`
literal and the `max_unfolding` literal, with depth `3`, the code
requests a restart through the length branch and sets the depth to `4`
(`d+1`), not to `(1+3·3)/2 = 5` as the claim requires for any core
containing `max_unfolding`. -/
theorem C3_depth_update_counterexample :
    CoreElem.maxUnfolding ∈ [CoreElem.lengthLimit 7 4, CoreElem.maxUnfolding] ∧
    (should_research true 3 (fun _ => 0)
      [CoreElem.lengthLimit 7 4, CoreElem.maxUnfolding]).restart = true ∧
    (should_research true 3 (fun _ => 0)
      [CoreElem.lengthLimit 7 4, CoreElem.maxUnfolding]).newDepth = 4 ∧
    (1 + 3 * 3) / 2 = 5 := by
  decide

end Z3Seq

namespace Z3Seq

/-- C4 (amended): `propagate_accept` conflicts on a sink state;
otherwise it propagates `|s| ≥ i` and emits
`acc → |s| ≤ i ∨ ⋁ step` for a final state, propagates `|s| > i` and
emits `acc → ⋁ step` for a non-final state; and it asserts the negated
`max_unfolding` assumption exactly when `i` exceeds the depth bound,
the assumption literal exists, and the scope level is positive. -/
theorem C4_propagate_accept_cases (aut : EAutomaton) (d : Nat)
    (lit : Option Nat) (sl idx src : Nat) :
    (aut.isSinkState src = true →
      propagate_accept aut d lit sl idx src = [AccAction.conflict]) ∧
    (aut.isSinkState src = false → aut.isFinalState src = true →
      propagate_accept aut d lit sl idx src =
        [AccAction.propagateGeLen idx,
         AccAction.thAxiom (AccLit.negAcc :: AccLit.leLen idx :: stepLitsOf aut src idx)] ++
        (if d < idx ∧ lit.isSome = true ∧ 0 < sl
         then [AccAction.propagateNegMaxUnfolding] else [])) ∧
    (aut.isSinkState src = false → aut.isFinalState src = false →
      propagate_accept aut d lit sl idx src =
        [AccAction.propagateGtLen idx,
         AccAction.thAxiom (AccLit.negAcc :: stepLitsOf aut src idx)] ++
        (if d < idx ∧ lit.isSome = true ∧ 0 < sl
         then [AccAction.propagateNegMaxUnfolding] else [])) ∧
    (AccAction.propagateNegMaxUnfolding ∈ propagate_accept aut d lit sl idx src ↔
      aut.isSinkState src = false ∧ d < idx ∧ lit.isSome = true ∧ 0 < sl) := by
  by_cases hs : aut.isSinkState src
  · refine ⟨fun _ => by simp [propagate_accept, hs], ?_, ?_, ?_⟩
    · intro h; rw [h] at hs; exact absurd hs (by simp)
    · intro h; rw [h] at hs; exact absurd hs (by simp)
    · simp [propagate_accept, hs]
  · have hs' : aut.isSinkState src = false := by simpa using hs
    by_cases hg : d < idx ∧ lit.isSome = true ∧ 0 < sl
    · have hgb : (decide (d < idx) && lit.isSome && decide (0 < sl)) = true := by
        simp [hg.1, hg.2.1, hg.2.2]
      by_cases hf : aut.isFinalState src
      · refine ⟨fun h => absurd h (by simp [hs']), fun _ _ => ?_, ?_, ?_⟩
        · simp [propagate_accept, hs', hf, hgb, stepLitsOf, hg]
        · intro _ h; rw [h] at hf; exact absurd hf (by simp)
        · simp [propagate_accept, hs', hf, hgb, hg]
      · have hf' : aut.isFinalState src = false := by simpa using hf
        refine ⟨fun h => absurd h (by simp [hs']), ?_, fun _ _ => ?_, ?_⟩
        · intro _ h; rw [h] at hf'; simp at hf'
        · simp [propagate_accept, hs', hf', hgb, stepLitsOf, hg]
        · simp [propagate_accept, hs', hf', hgb, hg]
    · have hgb : (decide (d < idx) && lit.isSome && decide (0 < sl)) = false := by
        rcases Decidable.not_and_iff_or_not.mp hg with h | h
        · simp [h]
        · rcases Decidable.not_and_iff_or_not.mp h with h' | h'
          · simp [h']
          · simp [h']
      by_cases hf : aut.isFinalState src
      · refine ⟨fun h => absurd h (by simp [hs']), fun _ _ => ?_, ?_, ?_⟩
        · simp [propagate_accept, hs', hf, hgb, stepLitsOf, hg]
        · intro _ h; rw [h] at hf; exact absurd hf (by simp)
        · simp [propagate_accept, hs', hf, hgb, hg]
      · have hf' : aut.isFinalState src = false := by simpa using hf
        refine ⟨fun h => absurd h (by simp [hs']), ?_, fun _ _ => ?_, ?_⟩
        · intro _ h; rw [h] at hf'; simp at hf'
        · simp [propagate_accept, hs', hf', hgb, stepLitsOf, hg]
        · simp [propagate_accept, hs', hf', hgb, hg]

/-- C4, witness for `C4_propagate_accept_cases`: a non-final non-sink
state with `idx = 2` above the depth bound `1`, a live assumption
literal and positive scope level. -/
theorem C4_propagate_accept_witness :
    autPlain.isSinkState 0 = false ∧ autPlain.isFinalState 0 = false ∧
    propagate_accept autPlain 1 (some 5) 1 2 0 =
      [AccAction.propagateGtLen 2, AccAction.thAxiom [AccLit.negAcc],
       AccAction.propagateNegMaxUnfolding] := by
  refine ⟨rfl, rfl, ?_⟩
  have h := (C4_propagate_accept_cases autPlain 1 (some 5) 1 2 0).2.2.1 rfl rfl
  rw [h]
  simp [stepLitsOf, autPlain]

/-- C4, counterexample: with `i = 2` above the depth bound `1` but at
scope level `0`, `propagate_accept` does not assert the negated
`max_unfolding` literal (the guard of line 3404 also requires a
positive scope level), contrary to the claim's unconditional reading. -/
theorem C4_scope_guard_counterexample :
    (1 : Nat) < 2 ∧ autPlain.isSinkState 0 = false ∧
    (Option.isSome (some 5) = true) ∧
    AccAction.propagateNegMaxUnfolding ∉ propagate_accept autPlain 1 (some 5) 0 2 0 := by
  decide

end Z3Seq

namespace Z3Seq

/-- Helper: slot lookup after a slot write. -/
theorem smLookup_smInsert (m : List (Nat × Nat × Nat)) (e r d x : Nat) :
    smLookup (smInsert m e r d) x = if x = e then some (r, d) else smLookup m x := by
  induction m with
  | nil =>
    by_cases h : x = e
    · simp [smInsert, smLookup, h]
    · have h' : ¬ e = x := fun hh => h hh.symm
      simp [smInsert, smLookup, h, h']
  | cons p m ih =>
    obtain ⟨l, r0, d0⟩ := p
    by_cases hl : l = e
    · subst hl
      by_cases hx : x = l
      · subst hx
        simp [smInsert, smLookup]
      · have hx' : ¬ l = x := fun hh => hx hh.symm
        simp [smInsert, smLookup, hx, hx']
    · by_cases hx : x = l
      · subst hx
        have hne : ¬ x = e := fun hh => hl (hh ▸ rfl)
        simp [smInsert, smLookup, hl, hne]
      · have hx' : ¬ l = x := fun hh => hx hh.symm
        simp [smInsert, smLookup, hl, hx, hx', ih]

/-- Helper: entries after a slot write are the written entry or
pre-existing entries. -/
theorem mem_smInsert (m : List (Nat × Nat × Nat)) (e r d : Nat) :
    ∀ p ∈ smInsert m e r d, p = (e, r, d) ∨ p ∈ m := by
  induction m with
  | nil =>
    intro p hp
    simp [smInsert] at hp
    exact Or.inl hp
  | cons q m ih =>
    obtain ⟨l, r0, d0⟩ := q
    intro p hp
    by_cases hl : l = e
    · subst hl
      simp only [smInsert, if_pos rfl] at hp
      rcases List.mem_cons.mp hp with h | h
      · exact Or.inl h
      · exact Or.inr (List.mem_cons_of_mem _ h)
    · simp only [smInsert, if_neg hl] at hp
      rcases List.mem_cons.mp hp with h | h
      · exact Or.inr (h ▸ List.mem_cons_self _ _)
      · rcases ih p h with h' | h'
        · exact Or.inl h'
        · exact Or.inr (List.mem_cons_of_mem _ h')

/-- Helper: a key present after a slot write was the written key or an
existing key. -/
theorem mem_keys_smInsert (m : List (Nat × Nat × Nat)) (e r d x : Nat)
    (h : x ∈ (smInsert m e r d).map Prod.fst) :
    x = e ∨ x ∈ m.map Prod.fst := by
  rcases List.mem_map.mp h with ⟨p, hp, hpx⟩
  rcases mem_smInsert m e r d p hp with h' | h'
  · subst h'
    exact Or.inl hpx.symm
  · exact Or.inr (List.mem_map.mpr ⟨p, h', hpx⟩)

/-- Helper: a slot write keeps the keys of the slot array free of
duplicates. -/
theorem nodup_keys_smInsert (m : List (Nat × Nat × Nat)) (e r d : Nat)
    (h : (m.map Prod.fst).Nodup) :
    ((smInsert m e r d).map Prod.fst).Nodup := by
  induction m with
  | nil => simp [smInsert]
  | cons q m ih =>
    obtain ⟨l, r0, d0⟩ := q
    simp only [List.map_cons, List.nodup_cons] at h
    by_cases hl : l = e
    · rw [hl] at h
      simp only [smInsert, if_pos hl, List.map_cons, List.nodup_cons]
      exact h
    · simp only [smInsert, if_neg hl, List.map_cons, List.nodup_cons]
      refine ⟨?_, ih h.2⟩
      intro hmem
      rcases mem_keys_smInsert m e r d l hmem with h' | h'
      · exact hl h'
      · exact h.1 h'

end Z3Seq

namespace Z3Seq

/-- Helper: `update` preserves the structural entry invariants. -/
theorem update_entriesOK (sm : SolutionMap) (e r d : Nat)
    (h : EntriesOK sm) : EntriesOK (sm.update e r d) := by
  by_cases her : e = r
  · simpa [SolutionMap.update, her] using h
  · have hmap : (sm.update e r d).map = smInsert sm.map e r d := by
      simp [SolutionMap.update, her]
    constructor
    · intro p hp
      rw [hmap] at hp
      rcases mem_smInsert sm.map e r d p hp with h' | h'
      · subst h'
        exact her
      · exact h.1 p h'
    · rw [hmap]
      exact nodup_keys_smInsert sm.map e r d h.2

/-- Helper: sequences of `update` operations preserve the entry
invariants. -/
theorem applyUpdates_entriesOK :
    ∀ (us : List (Nat × Nat × Nat)) (sm : SolutionMap),
      EntriesOK sm → EntriesOK (applyUpdates sm us) := by
  intro us
  induction us with
  | nil => intro sm h; exact h
  | cons u us ih =>
    obtain ⟨e, r, d⟩ := u
    intro sm h
    exact ih _ (update_entriesOK sm e r d h)

/-- Helper: chains decompose over addition of step counts. -/
theorem smChase_add (sm : SolutionMap) :
    ∀ (a b : Nat) (x : Nat), smChase sm (a + b) x = smChase sm b (smChase sm a x) := by
  intro a
  induction a with
  | zero =>
    intro b x
    rw [Nat.zero_add]
    rfl
  | succ a ih =>
    intro b x
    have : a + 1 + b = (a + b) + 1 := by omega
    rw [this]
    show smChase sm (a + b) (smStep sm x) = _
    rw [ih b (smStep sm x)]
    rfl

/-- Helper: lookups in an updated map differ only at the written key. -/
theorem smLookup_update (sm : SolutionMap) (e r d : Nat) (hne : e ≠ r) (x : Nat) :
    smLookup (sm.update e r d).map x =
      if x = e then some (r, d) else smLookup sm.map x := by
  have hmap : (sm.update e r d).map = smInsert sm.map e r d := by
    simp [SolutionMap.update, hne]
  rw [hmap, smLookup_smInsert]

/-- Helper: a chain that avoids the written key is unchanged by the
update. -/
theorem smChase_update_of_avoid (sm : SolutionMap) (e r d : Nat) (hne : e ≠ r) :
    ∀ (n : Nat) (x : Nat), (∀ m, m < n → smChase sm m x ≠ e) →
      smChase (sm.update e r d) n x = smChase sm n x := by
  intro n
  induction n with
  | zero => intro x _; rfl
  | succ n ih =>
    intro x hx
    have hx0 : x ≠ e := by
      have := hx 0 (Nat.succ_pos n)
      simpa [smChase] using this
    have hstep : smStep (sm.update e r d) x = smStep sm x := by
      simp [smStep, smLookup_update sm e r d hne, hx0]
    show smChase (sm.update e r d) n (smStep (sm.update e r d) x) = _
    rw [hstep]
    have : ∀ m, m < n → smChase sm m (smStep sm x) ≠ e := by
      intro m hm
      have := hx (m + 1) (Nat.succ_lt_succ hm)
      simpa [smChase] using this
    rw [ih (smStep sm x) this]
    rfl

/-- Helper: after an occurs-checked update, the chain from the written
replacement still terminates. -/
theorem terminates_update_from_r (sm : SolutionMap) (e r d : Nat) (hne : e ≠ r)
    (hterm : FindTerminates sm r) (hocc : ∀ m, smChase sm m r ≠ e) :
    FindTerminates (sm.update e r d) r := by
  obtain ⟨n, hn⟩ := hterm
  refine ⟨n, ?_⟩
  rw [smChase_update_of_avoid sm e r d hne n r (fun m _ => hocc m)]
  rw [smLookup_update sm e r d hne]
  simp [hocc n, hn]

/-- C8 (amended): after any sequence of `update` operations every
stored entry satisfies `lhs ≠ rhs` and the slot keys are pairwise
distinct; and an `update` whose replacement's chain never reaches the
written key (the occurs-check discipline the callers must enforce)
preserves termination of every `find` chain.  `update` itself does not
enforce that discipline (see the counterexample). -/
theorem C8_solution_map_invariants :
    (∀ us, EntriesOK (applyUpdates SolutionMap.empty us)) ∧
    (∀ (sm : SolutionMap) (e r d : Nat),
      (∀ x, FindTerminates sm x) → (∀ m, smChase sm m r ≠ e) →
      ∀ x, FindTerminates (sm.update e r d) x) := by
  constructor
  · intro us
    exact applyUpdates_entriesOK us SolutionMap.empty ⟨by simp [SolutionMap.empty], by simp [SolutionMap.empty]⟩
  · intro sm e r d hall hocc x
    have hne : e ≠ r := fun h => hocc 0 (by simpa [smChase] using h.symm)
    by_cases hhit : ∃ m, smChase sm m x = e
    · have hm0 : smChase sm (Nat.find hhit) x = e := Nat.find_spec hhit
      have hmin : ∀ m, m < Nat.find hhit → smChase sm m x ≠ e :=
        fun m hm => Nat.find_min hhit hm
      set m0 := Nat.find hhit with hm0def
      have hch : smChase (sm.update e r d) m0 x = e := by
        rw [smChase_update_of_avoid sm e r d hne m0 x (fun m hm => hmin m hm)]
        exact hm0
      obtain ⟨n', hn'⟩ := terminates_update_from_r sm e r d hne (hall r) hocc
      refine ⟨m0 + (n' + 1), ?_⟩
      rw [smChase_add, hch]
      have hstep : smStep (sm.update e r d) e = r := by
        simp [smStep, smLookup_update sm e r d hne]
      show smLookup (sm.update e r d).map
        (smChase (sm.update e r d) n' (smStep (sm.update e r d) e)) = none
      rw [hstep]
      exact hn'
    · push_neg at hhit
      obtain ⟨n, hn⟩ := hall x
      refine ⟨n, ?_⟩
      rw [smChase_update_of_avoid sm e r d hne n x (fun m _ => hhit m)]
      rw [smLookup_update sm e r d hne]
      simp [hhit n, hn]

/-- C8, witness for `C8_solution_map_invariants`: a two-update sequence
keeps the entry invariants, and an occurs-checked update on the empty
map keeps `find` terminating. -/
theorem C8_solution_map_invariants_witness :
    EntriesOK (applyUpdates SolutionMap.empty [(0, 1, 0), (2, 3, 1)]) ∧
    FindTerminates (SolutionMap.empty.update 0 1 0) 0 := by
  constructor
  · exact C8_solution_map_invariants.1 [(0, 1, 0), (2, 3, 1)]
  · refine C8_solution_map_invariants.2 SolutionMap.empty 0 1 0 (fun x => ⟨0, rfl⟩) ?_ 0
    have hch : ∀ m, smChase SolutionMap.empty m 1 = 1 := by
      intro m
      induction m with
      | zero => rfl
      | succ m ih =>
        show smChase SolutionMap.empty m (smStep SolutionMap.empty 1) = 1
        have : smStep SolutionMap.empty 1 = 1 := rfl
        rw [this, ih]
    intro m
    rw [hch m]
    decide

/-- C8, counterexample: two plain `update` operations create a cycle
`0 ↦ 1 ↦ 0`; both entries are stored and the `find` chain from `0`
never terminates — `update` performs no cycle check. -/
theorem C8_cycle_counterexample :
    smLookup cycleMap.map 0 = some (1, 0) ∧
    smLookup cycleMap.map 1 = some (0, 0) ∧
    ¬ FindTerminates cycleMap 0 := by
  refine ⟨by decide, by decide, ?_⟩
  rintro ⟨n, hn⟩
  have hcl : ∀ m x, (x = 0 ∨ x = 1) → (smChase cycleMap m x = 0 ∨ smChase cycleMap m x = 1) := by
    intro m
    induction m with
    | zero => intro x hx; exact hx
    | succ m ih =>
      intro x hx
      show smChase cycleMap m (smStep cycleMap x) = 0 ∨ smChase cycleMap m (smStep cycleMap x) = 1
      rcases hx with rfl | rfl
      · exact ih _ (Or.inr (by decide))
      · exact ih _ (Or.inl (by decide))
  rcases hcl n 0 (Or.inl rfl) with h | h <;> rw [h] at hn <;> exact absurd hn (by decide)

end Z3Seq

namespace Z3Seq

/-- Helper: a non-concatenation, non-empty term is its own leaf list. -/
theorem catLeaves_atom : ∀ t : STerm, isAtomC t = true → catLeaves t = [t] := by
  intro t h
  cases t <;> first | rfl | exact absurd h (by simp [isAtomC])

/-- Helper: rebuilding from a list of atoms and flattening again is the
identity. -/
theorem catLeaves_catOfList :
    ∀ L : List STerm, (∀ u ∈ L, isAtomC u = true) → catLeaves (catOfList L) = L := by
  intro L
  induction L with
  | nil => intro _; rfl
  | cons t ts ih =>
    intro h
    cases ts with
    | nil =>
      simpa [catOfList] using catLeaves_atom t (h t (List.mem_cons_self _ _))
    | cons t' ts' =>
      have hts : catLeaves (catOfList (t' :: ts')) = t' :: ts' :=
        ih fun u hu => h u (List.mem_cons_of_mem _ hu)
      have hat : catLeaves t = [t] := catLeaves_atom t (h t (List.mem_cons_self _ _))
      show catLeaves (STerm.cat t (catOfList (t' :: ts'))) = t :: t' :: ts'
      simp [catLeaves, hat, hts]

/-- Helper: the modelled rewriter is idempotent, and every leaf of its
output is a rewriter-fixed atom. -/
theorem rwSeq_good : ∀ t : STerm,
    rwSeq (rwSeq t) = rwSeq t ∧
    ∀ u ∈ catLeaves (rwSeq t), isAtomC u = true ∧ rwSeq u = u := by
  have hlist : ∀ L : List STerm, (∀ u ∈ L, isAtomC u = true ∧ rwSeq u = u) →
      rwSeq (catOfList L) = catOfList L := by
    intro L
    induction L with
    | nil => intro _; rfl
    | cons t ts ih =>
      intro h
      cases ts with
      | nil => exact (h t (List.mem_cons_self _ _)).2
      | cons t' ts' =>
        have hht := h t (List.mem_cons_self _ _)
        have hrest : rwSeq (catOfList (t' :: ts')) = catOfList (t' :: ts') :=
          ih fun u hu => h u (List.mem_cons_of_mem _ hu)
        have hleaves : catLeaves (catOfList (t' :: ts')) = t' :: ts' :=
          catLeaves_catOfList _ fun u hu => (h u (List.mem_cons_of_mem _ hu)).1
        show rwSeq (STerm.cat t (catOfList (t' :: ts'))) = _
        simp [rwSeq, hht.2, hrest, hleaves, catLeaves_atom t hht.1, catOfList]
  intro t
  induction t with
  | var n => exact ⟨rfl, by simp [rwSeq, catLeaves, isAtomC]⟩
  | empty => exact ⟨rfl, by simp [rwSeq, catLeaves]⟩
  | str s => exact ⟨rfl, by simp [rwSeq, catLeaves, isAtomC]⟩
  | intLit k => exact ⟨rfl, by simp [rwSeq, catLeaves, isAtomC]⟩
  | other id => exact ⟨rfl, by simp [rwSeq, catLeaves, isAtomC]⟩
  | unitT c ihc =>
    refine ⟨by simp [rwSeq, ihc.1], ?_⟩
    intro u hu
    simp only [rwSeq, catLeaves] at hu
    rcases List.mem_singleton.mp hu with rfl
    exact ⟨by simp [isAtomC], by simp [rwSeq, ihc.1]⟩
  | pref a b iha ihb =>
    refine ⟨by simp [rwSeq, iha.1, ihb.1], ?_⟩
    intro u hu
    simp only [rwSeq, catLeaves] at hu
    rcases List.mem_singleton.mp hu with rfl
    exact ⟨by simp [isAtomC], by simp [rwSeq, iha.1, ihb.1]⟩
  | suff a b iha ihb =>
    refine ⟨by simp [rwSeq, iha.1, ihb.1], ?_⟩
    intro u hu
    simp only [rwSeq, catLeaves] at hu
    rcases List.mem_singleton.mp hu with rfl
    exact ⟨by simp [isAtomC], by simp [rwSeq, iha.1, ihb.1]⟩
  | cont a b iha ihb =>
    refine ⟨by simp [rwSeq, iha.1, ihb.1], ?_⟩
    intro u hu
    simp only [rwSeq, catLeaves] at hu
    rcases List.mem_singleton.mp hu with rfl
    exact ⟨by simp [isAtomC], by simp [rwSeq, iha.1, ihb.1]⟩
  | index2 a b iha ihb =>
    refine ⟨by simp [rwSeq, iha.1, ihb.1], ?_⟩
    intro u hu
    simp only [rwSeq, catLeaves] at hu
    rcases List.mem_singleton.mp hu with rfl
    exact ⟨by simp [isAtomC], by simp [rwSeq, iha.1, ihb.1]⟩
  | lastIdx a b iha ihb =>
    refine ⟨by simp [rwSeq, iha.1, ihb.1], ?_⟩
    intro u hu
    simp only [rwSeq, catLeaves] at hu
    rcases List.mem_singleton.mp hu with rfl
    exact ⟨by simp [isAtomC], by simp [rwSeq, iha.1, ihb.1]⟩
  | index3 a b c iha ihb ihc =>
    refine ⟨by simp [rwSeq, iha.1, ihb.1, ihc.1], ?_⟩
    intro u hu
    simp only [rwSeq, catLeaves] at hu
    rcases List.mem_singleton.mp hu with rfl
    exact ⟨by simp [isAtomC], by simp [rwSeq, iha.1, ihb.1, ihc.1]⟩
  | iteE c t e iht ihe =>
    refine ⟨by simp [rwSeq, iht.1, ihe.1], ?_⟩
    intro u hu
    simp only [rwSeq, catLeaves] at hu
    rcases List.mem_singleton.mp hu with rfl
    exact ⟨by simp [isAtomC], by simp [rwSeq, iht.1, ihe.1]⟩
  | cat a b iha ihb =>
    have hgood : ∀ u ∈ catLeaves (rwSeq a) ++ catLeaves (rwSeq b),
        isAtomC u = true ∧ rwSeq u = u := by
      intro u hu
      rcases List.mem_append.mp hu with hu | hu
      · exact iha.2 u hu
      · exact ihb.2 u hu
    refine ⟨?_, ?_⟩
    · show rwSeq (catOfList (catLeaves (rwSeq a) ++ catLeaves (rwSeq b))) = _
      exact hlist _ hgood
    · intro u hu
      have hl : catLeaves (rwSeq (STerm.cat a b)) =
          catLeaves (rwSeq a) ++ catLeaves (rwSeq b) := by
        show catLeaves (catOfList _) = _
        exact catLeaves_catOfList _ fun u hu => (hgood u hu).1
      rw [hl] at hu
      exact hgood u hu

end Z3Seq

namespace Z3Seq

/-- Helper: under the key discipline, only variables and string
literals can have solution-map entries. -/
theorem lookup_not_varstr {ρ : SolMap} (hk : VarStrKeys ρ) {x : STerm}
    (hx : isVarOrStr x = false) : lookupMap ρ x = none := by
  induction ρ with
  | nil => rfl
  | cons p ρ ih =>
    obtain ⟨k, v⟩ := p
    have hkk : isVarOrStr k = true := hk (k, v) (List.mem_cons_self _ _)
    have hne : ¬ k = x := by
      intro h
      rw [h, hx] at hkk
      cases hkk
    simp only [lookupMap, if_neg hne]
    exact ih fun p hp => hk p (List.mem_cons_of_mem _ hp)

/-- Helper: a term with no entry is its own `find` fixed point. -/
theorem findMap_of_lookup_none {ρ : SolMap} {e : STerm}
    (h : lookupMap ρ e = none) : findMap ρ e = e := by
  unfold findMap
  cases hl : ρ.length with
  | zero => rfl
  | succ n => simp [findChase, h]

/-- Helper: a reduced term has no solution-map entry. -/
theorem reduced_lookup_none {ρ : SolMap} :
    ∀ {t : STerm}, Reduced ρ t → lookupMap ρ t = none := by
  intro t h
  cases t with
  | var n => exact h
  | empty => exact h
  | str s => exact h
  | intLit k => exact h
  | other id => exact h
  | unitT c => exact h.1
  | cat a b => exact h.1
  | pref a b => exact h.1
  | suff a b => exact h.1
  | cont a b => exact h.1
  | index2 a b => exact h.elim
  | index3 a b c => exact h.1
  | lastIdx a b => exact h.1
  | iteE c t e => exact h.elim

/-- Helper: every successful expansion over a disciplined, rooted map
produces a reduced term. -/
theorem expand_reduced (ρ : SolMap) (σ : Nat → LBool) (hk : VarStrKeys ρ)
    (hr : Rooted ρ) :
    ∀ (fuel : Nat) (e r : STerm), expandF ρ σ fuel e = some r → Reduced ρ r := by
  intro fuel
  induction fuel with
  | zero => intro e r h; cases h
  | succ fuel ih =>
    intro e r h
    have hroot := hr e
    simp only [expandF] at h
    cases hfm : findMap ρ e with
    | var n =>
      rw [hfm] at h hroot
      cases h
      exact hroot
    | empty =>
      rw [hfm] at h hroot
      cases h
      exact hroot
    | str s =>
      rw [hfm] at h hroot
      cases h
      exact hroot
    | intLit k =>
      rw [hfm] at h hroot
      cases h
      exact hroot
    | other id =>
      rw [hfm] at h hroot
      cases h
      exact hroot
    | cat a b =>
      rw [hfm] at h
      have h2 : (do
          let a1 ← expandF ρ σ fuel a
          let b1 ← expandF ρ σ fuel b
          pure (STerm.cat a1 b1) : Option STerm) = some r := h
      cases ha : expandF ρ σ fuel a with
      | none => rw [ha] at h2; cases h2
      | some a1 =>
        cases hb : expandF ρ σ fuel b with
        | none => rw [ha, hb] at h2; simp at h2
        | some b1 =>
          rw [ha, hb] at h2
          simp at h2
          subst h2
          exact ⟨lookup_not_varstr hk (by simp [isVarOrStr]), ih a a1 ha, ih b b1 hb⟩
    | pref a b =>
      rw [hfm] at h
      have h2 : (do
          let a1 ← expandF ρ σ fuel a
          let b1 ← expandF ρ σ fuel b
          pure (STerm.pref a1 b1) : Option STerm) = some r := h
      cases ha : expandF ρ σ fuel a with
      | none => rw [ha] at h2; cases h2
      | some a1 =>
        cases hb : expandF ρ σ fuel b with
        | none => rw [ha, hb] at h2; simp at h2
        | some b1 =>
          rw [ha, hb] at h2
          simp at h2
          subst h2
          exact ⟨lookup_not_varstr hk (by simp [isVarOrStr]), ih a a1 ha, ih b b1 hb⟩
    | suff a b =>
      rw [hfm] at h
      have h2 : (do
          let a1 ← expandF ρ σ fuel a
          let b1 ← expandF ρ σ fuel b
          pure (STerm.suff a1 b1) : Option STerm) = some r := h
      cases ha : expandF ρ σ fuel a with
      | none => rw [ha] at h2; cases h2
      | some a1 =>
        cases hb : expandF ρ σ fuel b with
        | none => rw [ha, hb] at h2; simp at h2
        | some b1 =>
          rw [ha, hb] at h2
          simp at h2
          subst h2
          exact ⟨lookup_not_varstr hk (by simp [isVarOrStr]), ih a a1 ha, ih b b1 hb⟩
    | cont a b =>
      rw [hfm] at h
      have h2 : (do
          let a1 ← expandF ρ σ fuel a
          let b1 ← expandF ρ σ fuel b
          pure (STerm.cont a1 b1) : Option STerm) = some r := h
      cases ha : expandF ρ σ fuel a with
      | none => rw [ha] at h2; cases h2
      | some a1 =>
        cases hb : expandF ρ σ fuel b with
        | none => rw [ha, hb] at h2; simp at h2
        | some b1 =>
          rw [ha, hb] at h2
          simp at h2
          subst h2
          exact ⟨lookup_not_varstr hk (by simp [isVarOrStr]), ih a a1 ha, ih b b1 hb⟩
    | lastIdx a b =>
      rw [hfm] at h
      have h2 : (do
          let a1 ← expandF ρ σ fuel a
          let b1 ← expandF ρ σ fuel b
          pure (STerm.lastIdx a1 b1) : Option STerm) = some r := h
      cases ha : expandF ρ σ fuel a with
      | none => rw [ha] at h2; cases h2
      | some a1 =>
        cases hb : expandF ρ σ fuel b with
        | none => rw [ha, hb] at h2; simp at h2
        | some b1 =>
          rw [ha, hb] at h2
          simp at h2
          subst h2
          exact ⟨lookup_not_varstr hk (by simp [isVarOrStr]), ih a a1 ha, ih b b1 hb⟩
    | index2 a b =>
      rw [hfm] at h
      have h2 : (do
          let a1 ← expandF ρ σ fuel a
          let b1 ← expandF ρ σ fuel b
          pure (STerm.index3 a1 b1 (STerm.intLit 0)) : Option STerm) = some r := h
      cases ha : expandF ρ σ fuel a with
      | none => rw [ha] at h2; cases h2
      | some a1 =>
        cases hb : expandF ρ σ fuel b with
        | none => rw [ha, hb] at h2; simp at h2
        | some b1 =>
          rw [ha, hb] at h2
          simp at h2
          subst h2
          exact ⟨lookup_not_varstr hk (by simp [isVarOrStr]), ih a a1 ha, ih b b1 hb⟩
    | index3 a b c =>
      rw [hfm] at h
      have h2 : (do
          let a1 ← expandF ρ σ fuel a
          let b1 ← expandF ρ σ fuel b
          pure (STerm.index3 a1 b1 c) : Option STerm) = some r := h
      cases ha : expandF ρ σ fuel a with
      | none => rw [ha] at h2; cases h2
      | some a1 =>
        cases hb : expandF ρ σ fuel b with
        | none => rw [ha, hb] at h2; simp at h2
        | some b1 =>
          rw [ha, hb] at h2
          simp at h2
          subst h2
          exact ⟨lookup_not_varstr hk (by simp [isVarOrStr]), ih a a1 ha, ih b b1 hb⟩
    | unitT c =>
      rw [hfm] at h
      have h2 : (do
          let c1 ← expandF ρ σ fuel c
          pure (STerm.unitT c1) : Option STerm) = some r := h
      cases hc : expandF ρ σ fuel c with
      | none => rw [hc] at h2; cases h2
      | some c1 =>
        rw [hc] at h2
        simp at h2
        subst h2
        exact ⟨lookup_not_varstr hk (by simp [isVarOrStr]), ih c c1 hc⟩
    | iteE c t e1 =>
      rw [hfm] at h
      have h2 : (match σ c with
        | LBool.ltrue => expandF ρ σ fuel t
        | LBool.lfalse => expandF ρ σ fuel e1
        | LBool.lundef => none) = some r := h
      cases hσ : σ c with
      | ltrue =>
        rw [hσ] at h2
        exact ih t r h2
      | lfalse =>
        rw [hσ] at h2
        exact ih e1 r h2
      | lundef =>
        rw [hσ] at h2
        cases h2

/-- Helper: a reduced term is a fixed point of expansion, given fuel
at least its size. -/
theorem reduced_expand_fix (ρ : SolMap) (σ : Nat → LBool) :
    ∀ t : STerm, Reduced ρ t → ∀ fuel, sizeE t ≤ fuel →
      expandF ρ σ fuel t = some t := by
  intro t
  induction t with
  | var n =>
    intro h fuel hfuel
    cases fuel with
    | zero => simp [sizeE] at hfuel
    | succ f =>
      simp only [expandF]
      rw [findMap_of_lookup_none (reduced_lookup_none h)]
  | empty =>
    intro h fuel hfuel
    cases fuel with
    | zero => simp [sizeE] at hfuel
    | succ f =>
      simp only [expandF]
      rw [findMap_of_lookup_none (reduced_lookup_none h)]
  | str s =>
    intro h fuel hfuel
    cases fuel with
    | zero => simp [sizeE] at hfuel
    | succ f =>
      simp only [expandF]
      rw [findMap_of_lookup_none (reduced_lookup_none h)]
  | intLit k =>
    intro h fuel hfuel
    cases fuel with
    | zero => simp [sizeE] at hfuel
    | succ f =>
      simp only [expandF]
      rw [findMap_of_lookup_none (reduced_lookup_none h)]
  | other id =>
    intro h fuel hfuel
    cases fuel with
    | zero => simp [sizeE] at hfuel
    | succ f =>
      simp only [expandF]
      rw [findMap_of_lookup_none (reduced_lookup_none h)]
  | cat a b iha ihb =>
    intro h fuel hfuel
    cases fuel with
    | zero => simp [sizeE] at hfuel
    | succ f =>
      simp only [sizeE] at hfuel
      simp only [expandF]
      rw [findMap_of_lookup_none (reduced_lookup_none h)]
      show (do
        let a1 ← expandF ρ σ f a
        let b1 ← expandF ρ σ f b
        pure (STerm.cat a1 b1) : Option STerm) = _
      rw [iha h.2.1 f (by omega), ihb h.2.2 f (by omega)]
      rfl
  | pref a b iha ihb =>
    intro h fuel hfuel
    cases fuel with
    | zero => simp [sizeE] at hfuel
    | succ f =>
      simp only [sizeE] at hfuel
      simp only [expandF]
      rw [findMap_of_lookup_none (reduced_lookup_none h)]
      show (do
        let a1 ← expandF ρ σ f a
        let b1 ← expandF ρ σ f b
        pure (STerm.pref a1 b1) : Option STerm) = _
      rw [iha h.2.1 f (by omega), ihb h.2.2 f (by omega)]
      rfl
  | suff a b iha ihb =>
    intro h fuel hfuel
    cases fuel with
    | zero => simp [sizeE] at hfuel
    | succ f =>
      simp only [sizeE] at hfuel
      simp only [expandF]
      rw [findMap_of_lookup_none (reduced_lookup_none h)]
      show (do
        let a1 ← expandF ρ σ f a
        let b1 ← expandF ρ σ f b
        pure (STerm.suff a1 b1) : Option STerm) = _
      rw [iha h.2.1 f (by omega), ihb h.2.2 f (by omega)]
      rfl
  | cont a b iha ihb =>
    intro h fuel hfuel
    cases fuel with
    | zero => simp [sizeE] at hfuel
    | succ f =>
      simp only [sizeE] at hfuel
      simp only [expandF]
      rw [findMap_of_lookup_none (reduced_lookup_none h)]
      show (do
        let a1 ← expandF ρ σ f a
        let b1 ← expandF ρ σ f b
        pure (STerm.cont a1 b1) : Option STerm) = _
      rw [iha h.2.1 f (by omega), ihb h.2.2 f (by omega)]
      rfl
  | lastIdx a b iha ihb =>
    intro h fuel hfuel
    cases fuel with
    | zero => simp [sizeE] at hfuel
    | succ f =>
      simp only [sizeE] at hfuel
      simp only [expandF]
      rw [findMap_of_lookup_none (reduced_lookup_none h)]
      show (do
        let a1 ← expandF ρ σ f a
        let b1 ← expandF ρ σ f b
        pure (STerm.lastIdx a1 b1) : Option STerm) = _
      rw [iha h.2.1 f (by omega), ihb h.2.2 f (by omega)]
      rfl
  | index2 a b iha ihb =>
    intro h fuel hfuel
    exact h.elim
  | iteE cnd tb eb ihtb iheb =>
    intro h fuel hfuel
    exact h.elim
  | index3 a b cc iha ihb ihc =>
    intro h fuel hfuel
    cases fuel with
    | zero => simp [sizeE] at hfuel
    | succ f =>
      simp only [sizeE] at hfuel
      simp only [expandF]
      rw [findMap_of_lookup_none (reduced_lookup_none h)]
      show (do
        let a1 ← expandF ρ σ f a
        let b1 ← expandF ρ σ f b
        pure (STerm.index3 a1 b1 cc) : Option STerm) = _
      rw [iha h.2.1 f (by omega), ihb h.2.2 f (by omega)]
      rfl
  | unitT cu ihc =>
    intro h fuel hfuel
    cases fuel with
    | zero => simp [sizeE] at hfuel
    | succ f =>
      simp only [sizeE] at hfuel
      simp only [expandF]
      rw [findMap_of_lookup_none (reduced_lookup_none h)]
      show (do
        let c1 ← expandF ρ σ f cu
        pure (STerm.unitT c1) : Option STerm) = _
      rw [ihc h.2 f (by omega)]
      rfl

/-- Helper: a rebuilt concatenation of reduced atoms is reduced. -/
theorem reduced_catOfList {ρ : SolMap} (hk : VarStrKeys ρ) :
    ∀ L : List STerm, (∀ u ∈ L, Reduced ρ u ∧ isAtomC u = true) →
      Reduced ρ (catOfList L) := by
  intro L
  induction L with
  | nil =>
    intro _
    show lookupMap ρ STerm.empty = none
    exact lookup_not_varstr hk (by simp [isVarOrStr])
  | cons t ts ih =>
    intro h
    cases ts with
    | nil => exact (h t (List.mem_cons_self _ _)).1
    | cons t' ts' =>
      show Reduced ρ (STerm.cat t (catOfList (t' :: ts')))
      exact ⟨lookup_not_varstr hk (by simp [isVarOrStr]),
        (h t (List.mem_cons_self _ _)).1,
        ih fun u hu => h u (List.mem_cons_of_mem _ hu)⟩

/-- Helper: the modelled rewriter preserves reducedness, and every leaf
of its output is reduced. -/
theorem rwSeq_reduced {ρ : SolMap} (hk : VarStrKeys ρ) :
    ∀ t : STerm, Reduced ρ t →
      Reduced ρ (rwSeq t) ∧ ∀ u ∈ catLeaves (rwSeq t), Reduced ρ u := by
  intro t
  induction t with
  | var n =>
    intro h
    exact ⟨h, by intro u hu; rcases List.mem_singleton.mp hu with rfl; exact h⟩
  | empty =>
    intro h
    exact ⟨h, by intro u hu; simp [rwSeq, catLeaves] at hu⟩
  | str s =>
    intro h
    exact ⟨h, by intro u hu; rcases List.mem_singleton.mp hu with rfl; exact h⟩
  | intLit k =>
    intro h
    exact ⟨h, by intro u hu; rcases List.mem_singleton.mp hu with rfl; exact h⟩
  | other id =>
    intro h
    exact ⟨h, by intro u hu; rcases List.mem_singleton.mp hu with rfl; exact h⟩
  | unitT c ihc =>
    intro h
    have hred : Reduced ρ (STerm.unitT (rwSeq c)) :=
      ⟨lookup_not_varstr hk (by simp [isVarOrStr]), (ihc h.2).1⟩
    exact ⟨hred, by intro u hu; rcases List.mem_singleton.mp hu with rfl; exact hred⟩
  | pref a b iha ihb =>
    intro h
    have hred : Reduced ρ (STerm.pref (rwSeq a) (rwSeq b)) :=
      ⟨lookup_not_varstr hk (by simp [isVarOrStr]), (iha h.2.1).1, (ihb h.2.2).1⟩
    exact ⟨hred, by intro u hu; rcases List.mem_singleton.mp hu with rfl; exact hred⟩
  | suff a b iha ihb =>
    intro h
    have hred : Reduced ρ (STerm.suff (rwSeq a) (rwSeq b)) :=
      ⟨lookup_not_varstr hk (by simp [isVarOrStr]), (iha h.2.1).1, (ihb h.2.2).1⟩
    exact ⟨hred, by intro u hu; rcases List.mem_singleton.mp hu with rfl; exact hred⟩
  | cont a b iha ihb =>
    intro h
    have hred : Reduced ρ (STerm.cont (rwSeq a) (rwSeq b)) :=
      ⟨lookup_not_varstr hk (by simp [isVarOrStr]), (iha h.2.1).1, (ihb h.2.2).1⟩
    exact ⟨hred, by intro u hu; rcases List.mem_singleton.mp hu with rfl; exact hred⟩
  | lastIdx a b iha ihb =>
    intro h
    have hred : Reduced ρ (STerm.lastIdx (rwSeq a) (rwSeq b)) :=
      ⟨lookup_not_varstr hk (by simp [isVarOrStr]), (iha h.2.1).1, (ihb h.2.2).1⟩
    exact ⟨hred, by intro u hu; rcases List.mem_singleton.mp hu with rfl; exact hred⟩
  | index3 a b c iha ihb ihc =>
    intro h
    have hred : Reduced ρ (STerm.index3 (rwSeq a) (rwSeq b) (rwSeq c)) :=
      ⟨lookup_not_varstr hk (by simp [isVarOrStr]), (iha h.2.1).1, (ihb h.2.2).1⟩
    exact ⟨hred, by intro u hu; rcases List.mem_singleton.mp hu with rfl; exact hred⟩
  | index2 a b iha ihb =>
    intro h
    exact h.elim
  | iteE cnd tb eb ihtb iheb =>
    intro h
    exact h.elim
  | cat a b iha ihb =>
    intro h
    have hga := rwSeq_good a
    have hgb := rwSeq_good b
    have hall : ∀ u ∈ catLeaves (rwSeq a) ++ catLeaves (rwSeq b),
        Reduced ρ u ∧ isAtomC u = true := by
      intro u hu
      rcases List.mem_append.mp hu with hu | hu
      · exact ⟨(iha h.2.1).2 u hu, (hga.2 u hu).1⟩
      · exact ⟨(ihb h.2.2).2 u hu, (hgb.2 u hu).1⟩
    have hl : catLeaves (rwSeq (STerm.cat a b)) =
        catLeaves (rwSeq a) ++ catLeaves (rwSeq b) := by
      show catLeaves (catOfList _) = _
      exact catLeaves_catOfList _ fun u hu => (hall u hu).2
    refine ⟨?_, ?_⟩
    · show Reduced ρ (catOfList (catLeaves (rwSeq a) ++ catLeaves (rwSeq b)))
      exact reduced_catOfList hk _ hall
    · intro u hu
      rw [hl] at hu
      exact (hall u hu).1

/-- C7 (amended): `canonize` is idempotent on the term component for
every term on which it succeeds, provided the solution map obeys the
search-time discipline — every key is a variable or a string literal
and every `find` chain reaches a root.  Entries keyed by rebuildable
compound terms (as `mk_value` creates during model construction) can
break idempotence. -/
theorem C7_canonize_idem (ρ : SolMap) (σ : Nat → LBool) (fuel : Nat)
    (e r : STerm) (hk : VarStrKeys ρ) (hr : Rooted ρ)
    (h : canonizeF ρ σ fuel e = some r) :
    canonizeF ρ σ (sizeE r) r = some r := by
  obtain ⟨r1, hexp, hrw⟩ := Option.map_eq_some'.mp h
  have hred : Reduced ρ r1 := expand_reduced ρ σ hk hr fuel e r1 hexp
  have hred2 : Reduced ρ (rwSeq r1) := (rwSeq_reduced hk r1 hred).1
  have hfix : expandF ρ σ (sizeE (rwSeq r1)) (rwSeq r1) = some (rwSeq r1) :=
    reduced_expand_fix ρ σ (rwSeq r1) hred2 (sizeE (rwSeq r1)) (le_refl _)
  subst hrw
  simp [canonizeF, hfix, (rwSeq_good r1).1]

/-- C7, counterexample: over a solution map holding an entry keyed by
the compound term `t1 ++ t2` (as `mk_value` creates in model
construction), `canonize` of `v0 ++ t2` yields `t1 ++ t2`, but
canonizing that result again yields `t3` — the normal form is not a
fixed point, refuting unconditional idempotence. -/
theorem C7_canonize_counterexample :
    canonizeF mapCompoundKey (fun _ => LBool.lundef) 9
      (STerm.cat (.var 0) (.other 2)) = some (STerm.cat (.other 1) (.other 2)) ∧
    canonizeF mapCompoundKey (fun _ => LBool.lundef) 9
      (STerm.cat (.other 1) (.other 2)) = some (STerm.other 3) ∧
    STerm.other 3 ≠ STerm.cat (.other 1) (.other 2) := by
  refine ⟨?_, ?_, by decide⟩ <;> decide

/-- C7, witness for `C7_canonize_idem` over a disciplined one-entry
map. -/
theorem C7_canonize_idem_witness :
    VarStrKeys mapVarKey ∧
    canonizeF mapVarKey (fun _ => LBool.lundef) 5
      (STerm.cat (.var 0) .empty) = some (STerm.other 1) ∧
    canonizeF mapVarKey (fun _ => LBool.lundef) (sizeE (STerm.other 1))
      (STerm.other 1) = some (STerm.other 1) := by
  have hrooted : Rooted mapVarKey := by
    intro e
    by_cases h : e = STerm.var 0
    · subst h
      decide
    · have hl : lookupMap mapVarKey e = none := by
        have h' : ¬ STerm.var 0 = e := fun hh => h hh.symm
        simp only [mapVarKey, lookupMap, if_neg h']
      rw [findMap_of_lookup_none hl]
      exact hl
  have hkeys : VarStrKeys mapVarKey := by
    show ∀ p ∈ mapVarKey, isVarOrStr p.1 = true
    decide
  refine ⟨hkeys, by decide, ?_⟩
  exact C7_canonize_idem mapVarKey (fun _ => LBool.lundef) 5
    (STerm.cat (.var 0) .empty) (STerm.other 1) hkeys hrooted (by decide)

end Z3Seq
